import Mathlib

/-!
# Factorization-machine objective function (`fm.cc`)

A shallow embedding of `dmlc::fm::FmObjFunction` (dimension negotiation,
`Eval`, `CalcGrad`) together with the properties proved about it.

Conventions of the embedding.

* Floating values live in a carrier `α`.  Exact-arithmetic statements take
  `α = ℚ`; the carrier `XReal` adds the IEEE special values so that the
  `std::isnan` guard of `Eval` can be exercised.
* A raw buffer (`float *`, `std::vector<float>`) is a `List α`.  Every
  subscript is checked: an access outside the buffer yields `none`
  (undefined behaviour in the source).
* `size_t` values are `Nat`, reduced modulo `2 ^ 64` where the source
  multiplies or sums them; the 32-bit subscript `int n` of `CalcGrad` is
  computed with its wrap-around.
* `nthread` is an `int` member and `nfactor` a field of `model.param` used as
  an `int` (`for (int i = 0; i < model.param.nfactor; ++i)`); both only serve
  as loop bounds and multipliers and are embedded as `Nat` (a non-negative
  `int`).
* The rows of a block are handled by OpenMP threads.  Each thread writes only
  its own accumulator and the loss is an OpenMP sum reduction, so the
  embedding runs the rows in order and takes the thread of each row from the
  environment.
* Members of `model.param` that are declared in `fm.h` (`PredictMargin`,
  `MarginToLoss`, `Predict`, `PredToGrad`) are parameters of the embedding.
-/

namespace Fm

/-! ## Carrier of floating values -/

/-- Classifier standing for `std::isnan` on the carrier. -/
class IsNan (α : Type) where
  /-- Whether the value is a NaN. -/
  isnan : α → Bool

/-- Exact rationals are never NaN. -/
instance instIsNanRat : IsNan ℚ := ⟨fun _ => false⟩

/-- Doubles with exact finite arithmetic: a finite value is a rational (no
rounding, no overflow); the special values follow IEEE 754, with every
zero taken as positive. -/
inductive XReal
  /-- A finite value. -/
  | fin (q : ℚ)
  /-- Positive infinity. -/
  | pinf
  /-- Negative infinity. -/
  | ninf
  /-- Not a number. -/
  | nan
  deriving DecidableEq

namespace XReal

/-- Whether the value is neither infinite nor NaN (`std::isfinite`). -/
def isFinite : XReal → Bool
  | fin _ => true
  | _ => false

/-- Sign change. -/
def neg : XReal → XReal
  | fin a => fin (-a)
  | pinf => ninf
  | ninf => pinf
  | nan => nan

/-- Product of an infinity (positive or negative) and the finite value `q`:
NaN when `q` is zero, otherwise the infinity whose sign is the product of the
signs. -/
def scaleInf (positive : Bool) (q : ℚ) : XReal :=
  if q = 0 then nan
  else if 0 < q then (if positive then pinf else ninf)
  else (if positive then ninf else pinf)

/-- Sum. -/
def add : XReal → XReal → XReal
  | fin a, fin b => fin (a + b)
  | nan, _ => nan
  | _, nan => nan
  | pinf, ninf => nan
  | ninf, pinf => nan
  | pinf, _ => pinf
  | _, pinf => pinf
  | ninf, _ => ninf
  | _, ninf => ninf

/-- Product. -/
def mul : XReal → XReal → XReal
  | fin a, fin b => fin (a * b)
  | nan, _ => nan
  | _, nan => nan
  | pinf, fin b => scaleInf true b
  | ninf, fin b => scaleInf false b
  | fin a, pinf => scaleInf true a
  | fin a, ninf => scaleInf false a
  | pinf, pinf => pinf
  | ninf, ninf => pinf
  | pinf, ninf => ninf
  | ninf, pinf => ninf

/-- Quotient. -/
def div : XReal → XReal → XReal
  | fin a, fin b => if b = 0 then scaleInf true a else fin (a / b)
  | nan, _ => nan
  | _, nan => nan
  | fin _, pinf => fin 0
  | fin _, ninf => fin 0
  | pinf, fin b => if b < 0 then ninf else pinf
  | ninf, fin b => if b < 0 then pinf else ninf
  | pinf, pinf => nan
  | pinf, ninf => nan
  | ninf, pinf => nan
  | ninf, ninf => nan

instance : Zero XReal := ⟨fin 0⟩
instance : Add XReal := ⟨add⟩
instance : Sub XReal := ⟨fun a b => add a (neg b)⟩
instance : Mul XReal := ⟨mul⟩
instance : Div XReal := ⟨div⟩
instance : NatCast XReal := ⟨fun n => fin n⟩
instance : OfScientific XReal := ⟨fun m s e => fin (OfScientific.ofScientific m s e)⟩
instance : IsNan XReal := ⟨fun x => decide (x = nan)⟩

end XReal

section Embedding

variable {α : Type} [Zero α] [Add α] [Sub α] [Mul α] [Div α] [NatCast α]
  [OfScientific α] [DecidableEq α] [IsNan α]

/-! ## Rows and buffers -/

/-- Sparse row `dmlc::Row<unsigned>`: entry `j` of `feats` is the pair
`(index[j], get_value(j))`, for `j < length`. -/
structure Row (α : Type) where
  /-- Target of the row. -/
  label : α
  /-- Importance weight of the row. -/
  weight : α
  /-- Feature entries, in position order. -/
  feats : List (Nat × α)

/-- Read `p[n]` through a signed 32-bit subscript. -/
def load (p : List α) (n : Int) : Option α :=
  if 0 ≤ n then p[n.toNat]? else none

/-- Conversion of an `unsigned` value to `int` (two-complement wrap). -/
def toInt32 (u : Nat) : Int :=
  if u < 2 ^ 31 then (u : Int) else (u : Int) - 2 ^ 32

/-- Subscript `int n = v.index[j] * model.param.nfactor + i`: the product and
the sum are taken in `unsigned` arithmetic, the result is converted to
`int`. -/
def gradIndex (idx nfactor i : Nat) : Int :=
  toInt32 (((idx * nfactor) % 2 ^ 32 + i) % 2 ^ 32)

/-! ## Inner loops of `CalcGrad` -/

/-- First inner loop: `sumxf += weight[n] * v.get_value(j)` over the
positions of the row. -/
def sumxfLoop (weight : List α) (nfactor i : Nat) : List (Nat × α) → α → Option α
  | [], sumxf => some sumxf
  | (idx, x) :: rest, sumxf =>
    match load weight (gradIndex idx nfactor i) with
    | none => none
    | some wn => sumxfLoop weight nfactor i rest (sumxf + wn * x)

/-- The amount added at one position:
`v.get_value(j) * (sumxf - weight[n] * v.get_value(j)) * grad`. -/
def gradTerm (x wn sumxf grad : α) : α :=
  x * (sumxf - wn * x) * grad

/-- Update `tmp_out_grad[thread_id][n] += d`. -/
def addAt (tmp_out_grad : List (List α)) (thread_id : Nat) (n : Int) (d : α) :
    Option (List (List α)) :=
  match tmp_out_grad[thread_id]? with
  | none => none
  | some buf =>
    match load buf n with
    | none => none
    | some old => some (tmp_out_grad.set thread_id (buf.set n.toNat (old + d)))

/-- Second inner loop: every position adds its `gradTerm` to the accumulator
of the calling thread. -/
def scatterLoop (weight : List α) (nfactor i thread_id : Nat) (sumxf grad : α) :
    List (Nat × α) → List (List α) → Option (List (List α))
  | [], tmp_out_grad => some tmp_out_grad
  | (idx, x) :: rest, tmp_out_grad =>
    match load weight (gradIndex idx nfactor i) with
    | none => none
    | some wn =>
      match addAt tmp_out_grad thread_id (gradIndex idx nfactor i)
          (gradTerm x wn sumxf grad) with
      | none => none
      | some tmp2 => scatterLoop weight nfactor i thread_id sumxf grad rest tmp2

/-- Counted loop `for (k = 0; k < n; ++k) body(k)` over a state that an
out-of-bounds access can invalidate. -/
def forRange {σ : Type} (n : Nat) (body : Nat → σ → Option σ) (s : σ) : Option σ :=
  match n with
  | 0 => some s
  | k + 1 =>
    match forRange k body s with
    | none => none
    | some s1 => body k s1

/-- Body of the loop over the latent factors for one row: both inner loops
for factor `i`. -/
def factorStep (weight : List α) (nfactor thread_id : Nat) (grad : α)
    (feats : List (Nat × α)) (i : Nat) (tmp_out_grad : List (List α)) :
    Option (List (List α)) :=
  match sumxfLoop weight nfactor i feats 0 with
  | none => none
  | some sumxf => scatterLoop weight nfactor i thread_id sumxf grad feats tmp_out_grad

/-- Gradient of one row: `for (int i = 0; i < model.param.nfactor; ++i)`. -/
def rowGrad (weight : List α) (nfactor thread_id : Nat) (grad : α)
    (feats : List (Nat × α)) (tmp_out_grad : List (List α)) : Option (List (List α)) :=
  forRange nfactor (factorStep weight nfactor thread_id grad feats) tmp_out_grad

/-! ## Shard iterator -/

/-- Shard iterator `dmlc::RowBlockIter<unsigned>`: the blocks of the shard in
delivery order, the blocks `Next()` has not delivered yet, the block that
`Value()` currently returns and the column count `NumCol()`. -/
structure RowBlockIter (α : Type) where
  /-- All blocks of the shard. -/
  data : List (List (Row α))
  /-- Blocks still to be delivered in the current pass. -/
  pending : List (List (Row α))
  /-- Block returned by `Value()`. -/
  row_ : List (Row α)
  /-- Column count returned by `NumCol()`. -/
  num_col : Nat

/-- Method `BeforeFirst()`: restart the pass. -/
def RowBlockIter.BeforeFirst (it : RowBlockIter α) : RowBlockIter α :=
  { it with pending := it.data }

/-- Method `Next()`: deliver the next block if there is one. -/
def RowBlockIter.Next (it : RowBlockIter α) : Bool × RowBlockIter α :=
  match it.pending with
  | [] => (false, it)
  | b :: bs => (true, { it with pending := bs, row_ := b })

/-- Method `Value()`: the current block. -/
def RowBlockIter.Value (it : RowBlockIter α) : List (Row α) := it.row_

/-- Method `NumCol()`. -/
def RowBlockIter.NumCol (it : RowBlockIter α) : Nat := it.num_col

/-- Blocks delivered by `while (it->Next()) { batch = it->Value(); body }`,
by recursion on the pending blocks; `k` counts the blocks already delivered
and the second component of the result is the final `Value()`. -/
def whileNextAux {σ : Type} (body : Nat → List (Row α) → σ → Option σ) :
    List (List (Row α)) → Nat → List (Row α) → σ → Option (σ × List (Row α))
  | [], _, cur, s => some (s, cur)
  | b :: bs, k, _, s =>
    match body k b s with
    | none => none
    | some s1 => whileNextAux body bs (k + 1) b s1

/-- The loop `while (it->Next()) { batch = it->Value(); body }` when `k` blocks
were delivered before: the final state and the final iterator. -/
def whileNextFrom {σ : Type} (body : Nat → List (Row α) → σ → Option σ) (k : Nat)
    (it : RowBlockIter α) (s : σ) : Option (σ × RowBlockIter α) :=
  match whileNextAux body it.pending k it.row_ s with
  | none => none
  | some (s1, cur) => some (s1, { it with pending := [], row_ := cur })

/-- The loop `while (it->Next()) { batch = it->Value(); body }`. -/
def whileNext {σ : Type} (body : Nat → List (Row α) → σ → Option σ)
    (it : RowBlockIter α) (s : σ) : Option (σ × RowBlockIter α) :=
  whileNextFrom body 0 it s

/-! ## The objective function object -/

/-- Fields of `model.param` used by `fm.cc`. -/
structure FmModelParam where
  /-- Number of features. -/
  num_feature : Nat
  /-- Number of latent factors per feature. -/
  nfactor : Nat
  /-- Number of weights. -/
  num_weight : Nat
  /-- Global number of training rows. -/
  num_size : Nat
  /-- Global number of validation rows. -/
  num_size_val : Nat
  deriving DecidableEq, Repr

/-- Member `model` of the objective function (its parameter block). -/
structure FmModel where
  /-- Parameter block `model.param`. -/
  param : FmModelParam
  deriving DecidableEq, Repr

/-- Member functions of `model.param` declared in `fm.h`; `weight` is the
buffer handed to them. -/
structure FmModelFns (α : Type) where
  /-- Margin of a row, as used by `Eval`. -/
  PredictMargin : List α → Row α → α
  /-- Loss of a margin against a label. -/
  MarginToLoss : α → α → α
  /-- Prediction of a row, as used by `CalcGrad`. -/
  Predict : List α → Row α → α
  /-- Derivative of the loss at a prediction. -/
  PredToGrad : α → α → α

/-- State of `FmObjFunction`: the members read or written by `InitNumDim`,
`Eval` and `CalcGrad`, and the function-local static `tmp_out_grad` of
`CalcGrad` (`none` until its declaration is first executed). -/
structure FmObjFunction (α : Type) where
  /-- Training threads. -/
  nthread : Nat
  /-- L2 regularisation coefficient for V. -/
  reg_L2_V : α
  /-- The model. -/
  model : FmModel
  /-- Training data (assumed non-null). -/
  dtrain : RowBlockIter α
  /-- Validation data (assumed non-null where it is used). -/
  dval : RowBlockIter α
  /-- Path of the input model, "NULL" when there is none. -/
  model_in : String
  /-- Path of the validation data, "NULL" when there is none. -/
  val_data : String
  /-- Static accumulators of `CalcGrad`. -/
  tmp_out_grad : Option (List (List α))

/-- What the process environment answers: `rabit::GetRank()` and, for row
`i_b` of the `k`-th delivered block, `omp_get_thread_num()`. -/
structure Env where
  /-- Rank of this worker. -/
  rank : Nat
  /-- Thread that runs row `i_b` of block `k`. -/
  thread_num : Nat → Nat → Nat

/-- Which `CHECK` aborted the call. -/
inductive Fatal
  /-- The check `size == model.param.num_weight`. -/
  | dim
  /-- The check `!std::isnan(sum_val)`. -/
  | nan
  deriving DecidableEq, Repr

/-- Result of a call: normal return with a value and the final state, a
failed `CHECK` with the state at that point, or undefined behaviour (an
out-of-bounds access). -/
inductive Outcome (σ ρ : Type)
  /-- Normal return. -/
  | done : ρ → σ → Outcome σ ρ
  /-- A `CHECK` failed. -/
  | fatal : Fatal → σ → Outcome σ ρ
  /-- Out-of-bounds access. -/
  | undefined : Outcome σ ρ

/-- Value of a call that returned. -/
def Outcome.value? {σ ρ : Type} : Outcome σ ρ → Option ρ
  | .done r _ => some r
  | _ => none

/-- State after a call that returned. -/
def Outcome.state? {σ ρ : Type} : Outcome σ ρ → Option σ
  | .done _ s => some s
  | _ => none

/-! ## Dimension negotiation -/

/-- Collective `rabit::Allreduce<rabit::op::Max>` on one `size_t`: every
worker receives the maximum of the contributions. -/
def Allreduce_Max (contrib : List Nat) : Nat :=
  contrib.foldl max 0

/-- Collective `rabit::Allreduce<rabit::op::Sum>` on one `size_t`: every
worker receives the sum of the contributions (in `size_t` arithmetic). -/
def Allreduce_Sum (contrib : List Nat) : Nat :=
  contrib.sum % 2 ^ 64

/-- Method `InitNumDim(dim, size)` as run by `self` in a collective whose
members are `world`; returns `(dim, size)` and the new state. -/
def InitNumDim (self : FmObjFunction α) (world : List (FmObjFunction α)) :
    (Nat × Nat) × FmObjFunction α :=
  let p0 := self.model.param
  let p1 : FmModelParam :=
    if self.model_in = "NULL" then
      let ndim := Allreduce_Max (world.map fun w => w.dtrain.NumCol)
      let nsize := Allreduce_Sum (world.map fun w => w.dtrain.Value.length)
      let p := { p0 with num_feature := max ndim p0.num_feature, num_size := nsize }
      if self.val_data ≠ "NULL" then
        let nsize_val := Allreduce_Sum (world.map fun w => w.dval.Value.length)
        { p with num_size_val := nsize_val }
      else p
    else p0
  let p2 := { p1 with num_weight := (p1.num_feature * p1.nfactor) % 2 ^ 64 }
  ((p2.num_weight, p2.num_size), { self with model := { param := p2 } })

/-! ## Loss evaluation -/

/-- One block of `Eval`: `sum_val += MarginToLoss(label, PredictMargin(weight,
row)) * row.weight` over the rows of the block. -/
def lossBlock (fns : FmModelFns α) (weight : List α) (batch : List (Row α))
    (sum_val : α) : α :=
  batch.foldl
    (fun s r => s + fns.MarginToLoss r.label (fns.PredictMargin weight r) * r.weight) sum_val

/-- Body of the squares loop: `sum_sqr += weight[i] * weight[i]`. -/
def sumSqrStep (weight : List α) (i : Nat) (sum_sqr : α) : Option α :=
  match weight[i]? with
  | none => none
  | some wi => some (sum_sqr + wi * wi)

/-- The loop `sum_sqr += weight[i] * weight[i]` for `i < num_weight`. -/
def sumSqr (weight : List α) (num_weight : Nat) : Option α :=
  forRange num_weight (sumSqrStep weight) 0

/-- Method `Eval(weight, size, validation)`. -/
def Eval (fns : FmModelFns α) (env : Env) (self : FmObjFunction α) (weight : List α)
    (size : Nat) (validation : Bool) : Outcome (FmObjFunction α) α :=
  if size ≠ self.model.param.num_weight then .fatal .dim self
  else if validation then
    match whileNext (fun _ batch s => some (lossBlock fns weight batch s))
        self.dval.BeforeFirst 0 with
    | none => .undefined
    | some (sum_val, it) =>
      let self1 := { self with dval := it }
      if IsNan.isnan sum_val then .fatal .nan self1
      else .done (sum_val / (self.model.param.num_size_val : α)) self1
  else
    match whileNext (fun _ batch s => some (lossBlock fns weight batch s))
        self.dtrain.BeforeFirst 0 with
    | none => .undefined
    | some (sum_val, it) =>
      let self1 := { self with dtrain := it }
      let reg : Option α :=
        if env.rank = 0 then
          if self.reg_L2_V ≠ 0 then
            match sumSqr weight self.model.param.num_weight with
            | none => none
            | some sum_sqr => some (sum_val + 0.5 * self.reg_L2_V * sum_sqr)
          else some sum_val
        else some sum_val
      match reg with
      | none => .undefined
      | some sum_val1 =>
        if IsNan.isnan sum_val1 then .fatal .nan self1 else .done sum_val1 self1

/-! ## Gradient -/

/-- The call `memset(out_grad, 0.0f, sizeof(float) * size)`. -/
def memsetZero (out_grad : List α) (size : Nat) : Option (List α) :=
  if size ≤ out_grad.length then some (List.replicate size 0 ++ out_grad.drop size)
  else none

/-- Rows of one block: row `i_b` is handled by thread `thread_num k i_b`,
with `grad = PredToGrad(label, Predict(weight, v)) * v.weight`. -/
def rowsLoop (fns : FmModelFns α) (env : Env) (weight : List α) (nfactor k : Nat) :
    Nat → List (Row α) → List (List α) → Option (List (List α))
  | _, [], tmp_out_grad => some tmp_out_grad
  | i_b, v :: rest, tmp_out_grad =>
    match rowGrad weight nfactor (env.thread_num k i_b)
        (fns.PredToGrad v.label (fns.Predict weight v) * v.weight) v.feats tmp_out_grad with
    | none => none
    | some tmp2 => rowsLoop fns env weight nfactor k (i_b + 1) rest tmp2

/-- Body of the merge loops:
`out_grad[j] += tmp_out_grad[i][j]; tmp_out_grad[i][j] = 0.0`. -/
def mergeAt (i j : Nat) (st : List α × List (List α)) : Option (List α × List (List α)) :=
  match st.2[i]? with
  | none => none
  | some buf =>
    match st.1[j]?, buf[j]? with
    | some g, some t => some (st.1.set j (g + t), st.2.set i (buf.set j 0))
    | _, _ => none

/-- The merge `for (i < nthread) for (j < size)` after each block. -/
def mergeLoop (nthread size : Nat) (st : List α × List (List α)) :
    Option (List α × List (List α)) :=
  forRange nthread (fun i st1 => forRange size (mergeAt i) st1) st

/-- The declaration `static std::vector<std::vector<float> >
tmp_out_grad(nthread, tmp)` with `tmp(size, 0)`: the accumulators are created
the first time the declaration is executed and kept afterwards. -/
def staticInit (cur : Option (List (List α))) (nthread size : Nat) : List (List α) :=
  match cur with
  | none => List.replicate nthread (List.replicate size 0)
  | some t => t

/-- Body of the block loop of `CalcGrad` on the state `(out_grad,
tmp_out_grad)`. -/
def blockStep (fns : FmModelFns α) (env : Env) (weight : List α) (nfactor nthread size : Nat)
    (k : Nat) (batch : List (Row α)) (st : List α × Option (List (List α))) :
    Option (List α × Option (List (List α))) :=
  match rowsLoop fns env weight nfactor k 0 batch (staticInit st.2 nthread size) with
  | none => none
  | some tmp1 =>
    match mergeLoop nthread size (st.1, tmp1) with
    | none => none
    | some (g, tmp2) => some (g, some tmp2)

/-- Body of the regularisation loop: `out_grad[i] += reg_L2_V * weight[i]`. -/
def regStep (reg_L2_V : α) (weight : List α) (i : Nat) (out_grad : List α) :
    Option (List α) :=
  match out_grad[i]?, weight[i]? with
  | some gi, some wi => some (out_grad.set i (gi + reg_L2_V * wi))
  | _, _ => none

/-- The loop `out_grad[i] += reg_L2_V * weight[i]` for `i < num_weight`. -/
def regLoop (reg_L2_V : α) (weight : List α) (num_weight : Nat) (out_grad : List α) :
    Option (List α) :=
  forRange num_weight (regStep reg_L2_V weight) out_grad

/-- Method `CalcGrad(out_grad, weight, size)`; the state is the object
together with the caller buffer `out_grad`. -/
def CalcGrad (fns : FmModelFns α) (env : Env) (self : FmObjFunction α) (out_grad : List α)
    (weight : List α) (size : Nat) : Outcome (FmObjFunction α × List α) Unit :=
  if size ≠ self.model.param.num_weight then .fatal .dim (self, out_grad)
  else
    match memsetZero out_grad size with
    | none => .undefined
    | some g0 =>
      match whileNext
          (blockStep fns env weight self.model.param.nfactor self.nthread size)
          self.dtrain.BeforeFirst (g0, self.tmp_out_grad) with
      | none => .undefined
      | some ((g1, tmp1), it) =>
        let self1 := { self with dtrain := it, tmp_out_grad := tmp1 }
        if env.rank = 0 then
          if self.reg_L2_V ≠ 0 then
            match regLoop self.reg_L2_V weight self.model.param.num_weight g1 with
            | none => .undefined
            | some g2 => .done () (self1, g2)
          else .done () (self1, g1)
        else .done () (self1, g1)

/-! ## What the solver does with the returned values -/

/-- Sum of the values returned by the workers of a collective, as the solver
forms it with a reduce-sum; there is no sum when a worker did not return. -/
def sumReturned {σ : Type} : List (Outcome σ α) → Option α
  | [] => some 0
  | r :: rs =>
    match r.value?, sumReturned rs with
    | some v, some t => some (v + t)
    | _, _ => none

/-- Weighted loss of one row, `MarginToLoss(label, PredictMargin(weight, row)) *
row.weight`. -/
def rowLoss (fns : FmModelFns α) (weight : List α) (r : Row α) : α :=
  fns.MarginToLoss r.label (fns.PredictMargin weight r) * r.weight

/-- Loss accumulated by the block loop of `Eval` over a shard, in delivery
order. -/
def lossPass (fns : FmModelFns α) (weight : List α) (blocks : List (List (Row α))) : α :=
  blocks.foldl (fun s b => lossBlock fns weight b s) 0

/-- Loss and penalty accumulated by a training call: the pass over the
training shard, plus on rank 0 with a non-zero coefficient
`0.5 * reg_L2_V * sum_sqr`. -/
def trainAcc (fns : FmModelFns α) (env : Env) (self : FmObjFunction α) (weight : List α)
    (sum_sqr : α) : α :=
  if env.rank = 0 then
    if self.reg_L2_V ≠ 0 then
      lossPass fns weight self.dtrain.data + 0.5 * self.reg_L2_V * sum_sqr
    else lossPass fns weight self.dtrain.data
  else lossPass fns weight self.dtrain.data

/-! ## Specification-side quantities for `CalcGrad` -/

/-- Entry `tmp_out_grad[i][m]`, zero outside the buffers. -/
def peek (tmp_out_grad : List (List α)) (i m : Nat) : α :=
  (tmp_out_grad.getD i []).getD m 0

/-- Well-shaped accumulators: `T` buffers of length `S`. -/
def Shape (tmp_out_grad : List (List α)) (T S : Nat) : Prop :=
  tmp_out_grad.length = T ∧ ∀ i, i < T → (tmp_out_grad.getD i []).length = S

end Embedding

/-- The sum `Σ_j weight[index[j] * k + l] * value[j]` of a row for factor `l`. -/
def sumxfSpec (w : List ℚ) (k l : Nat) (feats : List (Nat × ℚ)) : ℚ :=
  (feats.map fun p => w.getD (p.1 * k + l) 0 * p.2).sum

/-- What one row contributes to gradient entry `m`: the sum, over the factors
`l < k` and the positions `j` with `index[j] * k + l = m`, of
`value[j] * (sumxf_l - w[m] * value[j]) * grad`. -/
def rowContrib (w : List ℚ) (k : Nat) (grad : ℚ) (feats : List (Nat × ℚ)) (m : Nat) : ℚ :=
  ∑ l ∈ Finset.range k,
    (feats.map fun p =>
      if p.1 * k + l = m then p.2 * (sumxfSpec w k l feats - w.getD m 0 * p.2) * grad
      else 0).sum

/-- The scalar `grad` of a row: `PredToGrad(label, Predict(weight, v)) * v.weight`. -/
def rowScalar (fns : FmModelFns ℚ) (w : List ℚ) (v : Row ℚ) : ℚ :=
  fns.PredToGrad v.label (fns.Predict w v) * v.weight

/-- Gradient entry `m` of a list of rows, without regularisation. -/
def gradSpec (fns : FmModelFns ℚ) (w : List ℚ) (k : Nat) (rows : List (Row ℚ)) (m : Nat) : ℚ :=
  (rows.map fun v => rowContrib w k (rowScalar fns w v) v.feats m).sum

/-- Memory-safety preconditions of a `CalcGrad` call: the weight and gradient
buffers hold `size` entries, `size` is addressable by an `int`, the static
accumulators (if already created) are `nthread` buffers of length `size`,
every thread id is below `nthread`, and every subscript
`index[j] * nfactor + l` of every training row lies below `size`. -/
def SafeCall {α : Type} (env : Env) (self : FmObjFunction α) (out_grad w : List α)
    (size : Nat) : Prop :=
  w.length = size ∧ out_grad.length = size ∧ size ≤ 2 ^ 31 ∧
  (∀ a b, env.thread_num a b < self.nthread) ∧
  (∀ bufs, self.tmp_out_grad = some bufs → Shape bufs self.nthread size) ∧
  ∀ b ∈ self.dtrain.data, ∀ v ∈ b, ∀ p ∈ v.feats, ∀ l, l < self.model.param.nfactor →
    p.1 * self.model.param.nfactor + l < size

/-- The static accumulators, if already created, are `nthread` zero buffers of
length `size`. -/
def ZeroAcc (self : FmObjFunction ℚ) (size : Nat) : Prop :=
  ∀ bufs, self.tmp_out_grad = some bufs →
    bufs = List.replicate self.nthread (List.replicate size 0)

/-- Sum over the `T` accumulators of entry `m`. -/
def tot (T : Nat) (tmp : List (List ℚ)) (m : Nat) : ℚ :=
  ∑ i ∈ Finset.range T, peek tmp i m

/-- What the accumulators found on entry add to entry `m` of `out_grad` at the
first merge (nothing when the shard has no block). -/
def staleAcc (self : FmObjFunction ℚ) (size m : Nat) : ℚ :=
  if self.dtrain.data.isEmpty then 0
  else tot self.nthread (staticInit self.tmp_out_grad self.nthread size) m


/-! ## Subscripts and buffer accesses -/

/-- Without wrap-around the machine subscript is the mathematical one. -/
theorem gradIndex_eq (idx k i : Nat) (h : idx * k + i < 2 ^ 31) :
    gradIndex idx k i = ((idx * k + i : Nat) : Int) := by
  unfold gradIndex toInt32
  generalize idx * k = m at h ⊢
  have h1 : m % 2 ^ 32 = m := Nat.mod_eq_of_lt (by omega)
  have h2 : (m + i) % 2 ^ 32 = m + i := Nat.mod_eq_of_lt (by omega)
  rw [h1, h2, if_pos h]

/-- A read below the length succeeds. -/
theorem load_natCast {α : Type} (p : List α) (n : Nat) : load p (n : Int) = p[n]? := by
  simp [load]

/-- An in-bounds read returns the entry. -/
theorem getElem?_eq_some_getD {β : Type} (l : List β) (n : Nat) (d : β) (h : n < l.length) :
    l[n]? = some (l.getD n d) := by
  simp [List.getD_eq_getElem?_getD, List.getElem?_eq_getElem h]

/-- In-bounds reads through the machine subscript return the entry at the
mathematical subscript. -/
theorem load_gradIndex (w : List ℚ) (idx k i : Nat) (hw : w.length ≤ 2 ^ 31)
    (h : idx * k + i < w.length) :
    load w (gradIndex idx k i) = some (w.getD (idx * k + i) 0) := by
  rw [gradIndex_eq idx k i (by omega), load_natCast]
  exact getElem?_eq_some_getD w _ 0 h

/-- The first inner loop returns the running sum plus `Σ weight[n_j] * x_j`. -/
theorem sumxfLoop_eq (w : List ℚ) (k l : Nat) (hw : w.length ≤ 2 ^ 31) :
    ∀ (feats : List (Nat × ℚ)) (s : ℚ), (∀ p ∈ feats, p.1 * k + l < w.length) →
      sumxfLoop w k l feats s
        = some (s + (feats.map fun p => w.getD (p.1 * k + l) 0 * p.2).sum) := by
  intro feats
  induction feats with
  | nil => intro s _; simp [sumxfLoop]
  | cons p rest ih =>
    intro s h
    obtain ⟨idx, x⟩ := p
    have h0 : idx * k + l < w.length := h (idx, x) (List.mem_cons_self _ _)
    have hr : ∀ q ∈ rest, q.1 * k + l < w.length := fun q hq => h q (List.mem_cons_of_mem _ hq)
    simp only [sumxfLoop, load_gradIndex w idx k l hw h0, ih _ hr, List.map_cons, List.sum_cons]
    congr 1
    ring

/-- A list sum as a sum over positions. -/
theorem sum_map_eq_sum_fin {β : Type} (xs : List β) (f : β → ℚ) :
    (xs.map f).sum = ∑ j : Fin xs.length, f (xs.get j) := by
  rw [← List.sum_ofFn]
  congr 1
  apply List.ext_get
  · simp
  · intro n h1 h2
    simp

/-! ## The block loop -/

/-- The block loop is the `while` loop of the source: it stops when `Next()`
answers false, and otherwise runs the body on `Value()` and goes on. -/
theorem whileNextFrom_step {α σ : Type} (body : Nat → List (Row α) → σ → Option σ) (k : Nat)
    (it : RowBlockIter α) (s : σ) :
    whileNextFrom body k it s
      = if it.Next.1 then
          match body k it.Next.2.Value s with
          | none => none
          | some s1 => whileNextFrom body (k + 1) it.Next.2 s1
        else some (s, it.Next.2) := by
  obtain ⟨data, pending, row_, num_col⟩ := it
  cases pending with
  | nil => rfl
  | cons b bs =>
    simp only [whileNextFrom, whileNextAux, RowBlockIter.Next, RowBlockIter.Value, if_true]
    cases body k b s with
    | none => rfl
    | some s1 => rfl

/-! ## Shape of `Eval` -/

/-- The block loop with a body that cannot fail is a fold over the pending
blocks. -/
theorem whileNextAux_pure {α σ : Type} (f : List (Row α) → σ → σ) :
    ∀ (blocks : List (List (Row α))) (k : Nat) (cur : List (Row α)) (s : σ),
      ∃ cur2, whileNextAux (fun _ b s => some (f b s)) blocks k cur s
        = some (blocks.foldl (fun s b => f b s) s, cur2) := by
  intro blocks
  induction blocks with
  | nil => intro k cur s; exact ⟨cur, rfl⟩
  | cons b bs ih =>
    intro k cur s
    obtain ⟨c, hc⟩ := ih (k + 1) b (f b s)
    exact ⟨c, by simp [whileNextAux, hc]⟩

/-- A full pass with a body that cannot fail folds over all blocks of the
shard. -/
theorem whileNext_pure {α σ : Type} (f : List (Row α) → σ → σ) (it : RowBlockIter α) (s : σ) :
    ∃ it2 : RowBlockIter α, whileNext (fun _ b s => some (f b s)) it.BeforeFirst s
      = some (it.data.foldl (fun s b => f b s) s, it2) := by
  obtain ⟨c, hc⟩ := whileNextAux_pure f it.data 0 it.row_ s
  exact ⟨{ it with pending := [], row_ := c }, by simp [whileNext, whileNextFrom, RowBlockIter.BeforeFirst, hc]⟩

/-- Shape of a validation call whose dimension check passes: the pass over the
validation shard, the NaN check, the division by `num_size_val`. -/
theorem Eval_validation {α : Type} [Zero α] [Add α] [Sub α] [Mul α] [Div α] [NatCast α]
    [OfScientific α] [DecidableEq α] [IsNan α] (fns : FmModelFns α) (env : Env) (self : FmObjFunction α)
    (weight : List α) :
    ∃ it2 : RowBlockIter α,
      Eval fns env self weight self.model.param.num_weight true
        = if IsNan.isnan (lossPass fns weight self.dval.data) then
            .fatal .nan { self with dval := it2 }
          else
            .done (lossPass fns weight self.dval.data / (self.model.param.num_size_val : α))
              { self with dval := it2 } := by
  obtain ⟨it2, h⟩ := whileNext_pure (lossBlock fns weight) self.dval (0 : α)
  exact ⟨it2, by simp [Eval, h, lossPass]⟩

/-- Shape of a training call whose dimension check passes and whose weight
buffer can be read up to `num_weight`. -/
theorem Eval_training {α : Type} [Zero α] [Add α] [Sub α] [Mul α] [Div α] [NatCast α]
    [OfScientific α] [DecidableEq α] [IsNan α] (fns : FmModelFns α) (env : Env) (self : FmObjFunction α)
    (weight : List α) (sum_sqr : α)
    (hsq : sumSqr weight self.model.param.num_weight = some sum_sqr) :
    ∃ it2 : RowBlockIter α,
      Eval fns env self weight self.model.param.num_weight false
        = if IsNan.isnan (trainAcc fns env self weight sum_sqr) then
            .fatal .nan { self with dtrain := it2 }
          else .done (trainAcc fns env self weight sum_sqr) { self with dtrain := it2 } := by
  obtain ⟨it2, h⟩ := whileNext_pure (lossBlock fns weight) self.dtrain (0 : α)
  refine ⟨it2, ?_⟩
  by_cases hr : env.rank = 0 <;> by_cases hz : self.reg_L2_V = 0 <;>
    simp [Eval, h, lossPass, trainAcc, hr, hz, hsq]

/-! ## `Eval` in exact arithmetic -/

/-- One block adds the weighted losses of its rows. -/
theorem lossBlock_eq (fns : FmModelFns ℚ) (w : List ℚ) :
    ∀ (batch : List (Row ℚ)) (s : ℚ),
      lossBlock fns w batch s = s + (batch.map (rowLoss fns w)).sum := by
  intro batch
  induction batch with
  | nil => intro s; simp [lossBlock]
  | cons r rest ih =>
    intro s
    have h := ih (s + rowLoss fns w r)
    simp only [lossBlock, List.foldl_cons, List.map_cons, List.sum_cons] at h ⊢
    rw [show fns.MarginToLoss r.label (fns.PredictMargin w r) * r.weight = rowLoss fns w r
      from rfl, h]
    ring

/-- The pass over a shard adds the weighted losses of all its rows. -/
theorem foldl_lossBlock_eq (fns : FmModelFns ℚ) (w : List ℚ) :
    ∀ (blocks : List (List (Row ℚ))) (s : ℚ),
      blocks.foldl (fun s b => lossBlock fns w b s) s
        = s + (blocks.flatten.map (rowLoss fns w)).sum := by
  intro blocks
  induction blocks with
  | nil => intro s; simp
  | cons b bs ih =>
    intro s
    rw [List.foldl_cons, ih, lossBlock_eq]
    simp [add_assoc]

/-- The accumulated loss of a shard is the sum of the weighted losses of its
rows. -/
theorem lossPass_eq (fns : FmModelFns ℚ) (w : List ℚ) (blocks : List (List (Row ℚ))) :
    lossPass fns w blocks = (blocks.flatten.map (rowLoss fns w)).sum := by
  rw [lossPass, foldl_lossBlock_eq, zero_add]

/-- The squares loop over a prefix of the weight buffer. -/
theorem forRange_sumSqr (w : List ℚ) :
    ∀ m : Nat, m ≤ w.length →
      forRange m (sumSqrStep w) (0 : ℚ) = some ((w.take m).map fun x => x * x).sum := by
  intro m
  induction m with
  | zero => intro _; simp [forRange]
  | succ m ih =>
    intro h
    have hm : m < w.length := by omega
    rw [forRange, ih (by omega)]
    simp only [sumSqrStep, List.getElem?_eq_getElem hm]
    rw [List.take_succ, List.map_append, List.sum_append]
    simp [List.getElem?_eq_getElem hm]

/-- The squares loop over the whole weight buffer. -/
theorem sumSqr_eq (w : List ℚ) :
    sumSqr w w.length = some (w.map fun x => x * x).sum := by
  rw [sumSqr, forRange_sumSqr w w.length le_rfl, List.take_length]

/-- Value of a validation call in exact arithmetic. -/
theorem Eval_validation_value (fns : FmModelFns ℚ) (env : Env) (self : FmObjFunction ℚ)
    (w : List ℚ) :
    (Eval fns env self w self.model.param.num_weight true).value?
      = some ((self.dval.data.flatten.map (rowLoss fns w)).sum
          / (self.model.param.num_size_val : ℚ)) := by
  obtain ⟨it2, h⟩ := Eval_validation fns env self w
  rw [h, lossPass_eq]
  simp [IsNan.isnan, Outcome.value?]

/-- Value of a training call in exact arithmetic. -/
theorem Eval_training_value (fns : FmModelFns ℚ) (env : Env) (self : FmObjFunction ℚ)
    (w : List ℚ) (hw : self.model.param.num_weight = w.length) :
    (Eval fns env self w w.length false).value?
      = some ((self.dtrain.data.flatten.map (rowLoss fns w)).sum
          + if env.rank = 0 then 1 / 2 * self.reg_L2_V * (w.map fun x => x ^ 2).sum else 0) := by
  have hsq : sumSqr w self.model.param.num_weight = some (w.map fun x => x * x).sum := by
    rw [hw, sumSqr_eq]
  obtain ⟨it2, h⟩ := Eval_training fns env self w _ hsq
  rw [← hw, h]
  have hsq2 : (w.map fun x => x * x) = (w.map fun x => x ^ 2) := by
    apply List.map_congr_left
    intro x _
    ring
  by_cases hr : env.rank = 0 <;> by_cases hz : self.reg_L2_V = 0 <;>
    simp [IsNan.isnan, Outcome.value?, trainAcc, lossPass_eq, hr, hz, hsq2]
  norm_num

/-- The reduce-sum of calls that all returned is the sum of their values. -/
theorem sumReturned_eq {σ : Type} :
    ∀ (rs : List (Outcome σ ℚ)) (vals : List ℚ),
      rs.map Outcome.value? = vals.map some → sumReturned rs = some vals.sum := by
  intro rs
  induction rs with
  | nil =>
    intro vals h
    cases vals with
    | nil => rfl
    | cons v vs => simp at h
  | cons r rs ih =>
    intro vals h
    cases vals with
    | nil => simp at h
    | cons v vs =>
      simp only [List.map_cons, List.cons.injEq] at h
      simp [sumReturned, h.1, ih vs h.2]

/-- Training calls on ranks `n, n + 1, ...` with `n ≥ 1` sum to the plain
losses of their shards. -/
theorem sumReturned_training_tail (fns : FmModelFns ℚ) (env : Nat → Env)
    (henv : ∀ r, (env r).rank = r) (w : List ℚ) :
    ∀ (ws : List (FmObjFunction ℚ)) (n : Nat), 1 ≤ n →
      (∀ s ∈ ws, s.model.param.num_weight = w.length) →
      sumReturned ((ws.enumFrom n).map fun p => Eval fns (env p.1) p.2 w w.length false)
        = some (ws.map fun s => (s.dtrain.data.flatten.map (rowLoss fns w)).sum).sum := by
  intro ws
  induction ws with
  | nil => intro n _ _; simp [sumReturned]
  | cons s rest ih =>
    intro n hn hws
    have h1 := Eval_training_value fns (env n) s w (hws s (List.mem_cons_self _ _))
    have h2 := ih (n + 1) (by omega) fun t ht => hws t (List.mem_cons_of_mem _ ht)
    have hne : ¬ n = 0 := by omega
    simp only [List.enumFrom_cons, List.map_cons, sumReturned, h1, h2, henv n, if_neg hne,
      add_zero, List.sum_cons]

/-- Claim C2 (the L2 penalty is counted once).  In exact arithmetic, for
`W ≥ 1` workers with ranks `0 .. W-1` that share the weight vector `w` (of
length `num_weight`) and the coefficient `reg_L2_V`, and for any training
shards: the sum over the workers of `Eval(w, num_weight, false)` is the sum
over all rows of all shards of the weighted loss plus
`0.5 * reg_L2_V * Σ_i w[i]^2`, the penalty appearing once; a worker of rank
different from 0 returns its plain local loss sum. -/
theorem eval_training_penalty_once (fns : FmModelFns ℚ) (env : Nat → Env)
    (w : List ℚ) (reg : ℚ) (ws : List (FmObjFunction ℚ))
    (henv : ∀ r, (env r).rank = r) (hW : 1 ≤ ws.length)
    (hws : ∀ s ∈ ws, s.reg_L2_V = reg ∧ s.model.param.num_weight = w.length) :
    sumReturned (ws.enum.map fun p => Eval fns (env p.1) p.2 w w.length false)
      = some ((ws.map fun s => (s.dtrain.data.flatten.map (rowLoss fns w)).sum).sum
          + 1 / 2 * reg * (w.map fun x => x ^ 2).sum) ∧
    ∀ (r : Nat) (s : FmObjFunction ℚ), ws[r]? = some s → r ≠ 0 →
      (Eval fns (env r) s w w.length false).value?
        = some (s.dtrain.data.flatten.map (rowLoss fns w)).sum := by
  constructor
  · cases ws with
    | nil => simp at hW
    | cons s0 rest =>
      have h0 := Eval_training_value fns (env 0) s0 w (hws s0 (List.mem_cons_self _ _)).2
      have ht := sumReturned_training_tail fns env henv w rest 1 le_rfl
        fun t ht => (hws t (List.mem_cons_of_mem _ ht)).2
      have hreg : s0.reg_L2_V = reg := (hws s0 (List.mem_cons_self _ _)).1
      simp only [List.enum, List.enumFrom_cons, List.map_cons, sumReturned, h0, ht, henv 0,
        if_true, List.sum_cons, hreg, zero_add]
      congr 1
      ring
  · intro r s hs hr
    have hmem : s ∈ ws := List.getElem?_mem hs
    rw [Eval_training_value fns (env r) s w (hws s hmem).2, henv r, if_neg hr, add_zero]

/-- Instance of C2: two workers holding one row each, constant loss 1, weight
vector `[3]` and coefficient 2; the global value is `1 + 1 + 0.5 * 2 * 9`. -/
theorem eval_training_penalty_once_witness :
    sumReturned
      ((List.enum
          [({ nthread := 1, reg_L2_V := 2, model := ⟨⟨1, 1, 1, 2, 0⟩⟩,
              dtrain := ⟨[[⟨1, 1, [(0, 1)]⟩]], [], [], 1⟩, dval := ⟨[], [], [], 0⟩,
              model_in := "NULL", val_data := "NULL", tmp_out_grad := none } :
              FmObjFunction ℚ),
           { nthread := 1, reg_L2_V := 2, model := ⟨⟨1, 1, 1, 2, 0⟩⟩,
              dtrain := ⟨[[⟨0, 1, [(0, 2)]⟩]], [], [], 1⟩, dval := ⟨[], [], [], 0⟩,
              model_in := "NULL", val_data := "NULL", tmp_out_grad := none }]).map
        fun p => Eval ⟨fun _ _ => 0, fun _ _ => 1, fun _ _ => 0, fun _ _ => 0⟩
          ⟨p.1, fun _ _ => 0⟩ p.2 [3] 1 false)
      = some (11 : ℚ) := by
  have h := (eval_training_penalty_once
    ⟨fun _ _ => 0, fun _ _ => 1, fun _ _ => 0, fun _ _ => 0⟩ (fun r => ⟨r, fun _ _ => 0⟩)
    [3] 2
    [{ nthread := 1, reg_L2_V := 2, model := ⟨⟨1, 1, 1, 2, 0⟩⟩,
        dtrain := ⟨[[⟨1, 1, [(0, 1)]⟩]], [], [], 1⟩, dval := ⟨[], [], [], 0⟩,
        model_in := "NULL", val_data := "NULL", tmp_out_grad := none },
     { nthread := 1, reg_L2_V := 2, model := ⟨⟨1, 1, 1, 2, 0⟩⟩,
        dtrain := ⟨[[⟨0, 1, [(0, 2)]⟩]], [], [], 1⟩, dval := ⟨[], [], [], 0⟩,
        model_in := "NULL", val_data := "NULL", tmp_out_grad := none }]
    (fun _ => rfl) (by simp) (by simp)).1
  rw [show ([3] : List ℚ).length = 1 from rfl] at h
  rw [h]
  simp [rowLoss]
  norm_num

/-- Claim C4 (validation loss is normalised by the global row count and does
not depend on the partition).  In exact arithmetic, with a global count
`num_size_val > 0`: `Eval(w, num_weight, true)` on any worker, whatever its
rank and its `reg_L2_V`, returns the sum of the weighted losses of the rows of
its validation shard divided by `num_size_val`; hence if the rows held by one
worker are, up to order, the rows of the shards of the workers `ws`, the sum of
the values returned by `ws` is the value returned by that one worker. -/
theorem eval_validation_partition_invariant (fns : FmModelFns ℚ) (w : List ℚ)
    (nw nval : Nat) (ws : List (Env × FmObjFunction ℚ)) (env1 : Env)
    (one : FmObjFunction ℚ) (hval : 0 < nval)
    (hws : ∀ p ∈ ws, p.2.model.param.num_weight = nw ∧ p.2.model.param.num_size_val = nval)
    (hone : one.model.param.num_weight = nw ∧ one.model.param.num_size_val = nval)
    (hrows : List.Perm one.dval.data.flatten
      (ws.map fun p => p.2.dval.data.flatten).flatten) :
    (∀ p ∈ ws, (Eval fns p.1 p.2 w nw true).value?
      = some ((p.2.dval.data.flatten.map (rowLoss fns w)).sum / (nval : ℚ))) ∧
    (Eval fns env1 one w nw true).value?
      = some ((one.dval.data.flatten.map (rowLoss fns w)).sum / (nval : ℚ)) ∧
    sumReturned (ws.map fun p => Eval fns p.1 p.2 w nw true)
      = (Eval fns env1 one w nw true).value? := by
  have _ := hval
  have hall : ∀ p ∈ ws, (Eval fns p.1 p.2 w nw true).value?
      = some ((p.2.dval.data.flatten.map (rowLoss fns w)).sum / (nval : ℚ)) := by
    intro p hp
    have h := Eval_validation_value fns p.1 p.2 w
    rw [(hws p hp).1, (hws p hp).2] at h
    exact h
  have h1 : (Eval fns env1 one w nw true).value?
      = some ((one.dval.data.flatten.map (rowLoss fns w)).sum / (nval : ℚ)) := by
    have h := Eval_validation_value fns env1 one w
    rw [hone.1, hone.2] at h
    exact h
  refine ⟨hall, h1, ?_⟩
  rw [h1, sumReturned_eq (ws.map fun p => Eval fns p.1 p.2 w nw true)
    (ws.map fun p => (p.2.dval.data.flatten.map (rowLoss fns w)).sum / (nval : ℚ))]
  · congr 1
    rw [(hrows.map (rowLoss fns w)).sum_eq, List.map_flatten, List.sum_flatten,
      List.map_map, List.map_map]
    clear hall hws hrows
    induction ws with
    | nil => simp
    | cons p rest ih => simp only [List.map_cons, List.sum_cons, ih, add_div]; rfl
  · rw [List.map_map, List.map_map]
    apply List.map_congr_left
    intro p hp
    exact hall p hp

/-- Instance of C4: three validation rows with losses 1, 2 and 3 (the loss is
the label), split over two workers or held by one, with `num_size_val = 3`. -/
theorem eval_validation_partition_invariant_witness :
    (Eval ⟨fun _ _ => 0, fun l _ => l, fun _ _ => 0, fun _ _ => 0⟩ ⟨0, fun _ _ => 0⟩
      ({ nthread := 1, reg_L2_V := 5, model := ⟨⟨1, 1, 1, 0, 3⟩⟩,
          dtrain := ⟨[], [], [], 1⟩,
          dval := ⟨[[⟨1, 1, []⟩, ⟨2, 1, []⟩, ⟨3, 1, []⟩]], [], [], 1⟩,
          model_in := "NULL", val_data := "v", tmp_out_grad := none } : FmObjFunction ℚ)
      [7] 1 true).value? = some (2 : ℚ) := by
  have h := (eval_validation_partition_invariant
    ⟨fun _ _ => 0, fun l _ => l, fun _ _ => 0, fun _ _ => 0⟩ [7] 1 3
    [(⟨0, fun _ _ => 0⟩,
      { nthread := 1, reg_L2_V := 5, model := ⟨⟨1, 1, 1, 0, 3⟩⟩,
        dtrain := ⟨[], [], [], 1⟩, dval := ⟨[[⟨1, 1, []⟩], [⟨2, 1, []⟩]], [], [], 1⟩,
        model_in := "NULL", val_data := "v", tmp_out_grad := none }),
     (⟨1, fun _ _ => 0⟩,
      { nthread := 1, reg_L2_V := 5, model := ⟨⟨1, 1, 1, 0, 3⟩⟩,
        dtrain := ⟨[], [], [], 1⟩, dval := ⟨[[⟨3, 1, []⟩]], [], [], 1⟩,
        model_in := "NULL", val_data := "v", tmp_out_grad := none })]
    ⟨0, fun _ _ => 0⟩
    { nthread := 1, reg_L2_V := 5, model := ⟨⟨1, 1, 1, 0, 3⟩⟩,
      dtrain := ⟨[], [], [], 1⟩,
      dval := ⟨[[⟨1, 1, []⟩, ⟨2, 1, []⟩, ⟨3, 1, []⟩]], [], [], 1⟩,
      model_in := "NULL", val_data := "v", tmp_out_grad := none }
    (by decide) (by simp) (by simp) (List.Perm.refl _)).2.1
  rw [h]
  simp [rowLoss]
  norm_num

/-! ## Buffers -/

/-- Entry of a buffer after one in-bounds write. -/
theorem getD_set_eq {β : Type} (l : List β) (n m : Nat) (x d : β) (h : n < l.length) :
    (l.set n x).getD m d = if m = n then x else l.getD m d := by
  simp only [List.getD_eq_getElem?_getD, List.getElem?_set]
  by_cases hmn : m = n
  · subst hmn; simp [h]
  · have : ¬ n = m := fun e => hmn e.symm
    simp [hmn, this]

/-- Entry of the accumulators after replacing one buffer. -/
theorem peek_set (tmp : List (List ℚ)) (t i m : Nat) (b : List ℚ) (h : t < tmp.length) :
    peek (tmp.set t b) i m = if i = t then b.getD m 0 else peek tmp i m := by
  unfold peek
  rw [getD_set_eq tmp t i b [] h]
  split <;> rfl

/-- Replacing a buffer by one of the same length keeps the shape. -/
theorem Shape_set {α : Type} (tmp : List (List α)) (T S t : Nat) (b : List α)
    (hs : Shape tmp T S)
    (hb : b.length = S) : Shape (tmp.set t b) T S := by
  refine ⟨by rw [List.length_set]; exact hs.1, ?_⟩
  intro i hi
  by_cases ht : t < tmp.length
  · rw [getD_set_eq tmp t i b [] ht]
    split
    · exact hb
    · exact hs.2 i hi
  · rw [List.set_eq_of_length_le (by omega)]
    exact hs.2 i hi

/-- In well-shaped accumulators a buffer can be fetched. -/
theorem Shape_getElem? {α : Type} (tmp : List (List α)) (T S t : Nat) (hs : Shape tmp T S)
    (ht : t < T) :
    tmp[t]? = some (tmp.getD t []) ∧ (tmp.getD t []).length = S := by
  have h : t < tmp.length := by rw [hs.1]; exact ht
  exact ⟨getElem?_eq_some_getD tmp t [] h, hs.2 t ht⟩

/-- The update `tmp_out_grad[t][n] += d` on well-shaped accumulators. -/
theorem addAt_spec (tmp : List (List ℚ)) (T S t n : Nat) (d : ℚ) (hs : Shape tmp T S)
    (ht : t < T) (hn : n < S) :
    ∃ tmp2, addAt tmp t (n : Int) d = some tmp2 ∧ Shape tmp2 T S ∧
      ∀ i m, peek tmp2 i m = peek tmp i m + if i = t ∧ m = n then d else 0 := by
  obtain ⟨hget, hlen⟩ := Shape_getElem? tmp T S t hs ht
  have hn2 : n < (tmp.getD t []).length := by rw [hlen]; exact hn
  have hload : load (tmp.getD t []) (n : Int) = some ((tmp.getD t []).getD n 0) := by
    rw [load_natCast]
    exact getElem?_eq_some_getD _ n 0 hn2
  refine ⟨tmp.set t ((tmp.getD t []).set n ((tmp.getD t []).getD n 0 + d)),
    by simp only [addAt, hget, hload, Int.toNat_ofNat], ?_, ?_⟩
  · exact Shape_set tmp T S t _ hs (by rw [List.length_set]; exact hlen)
  · intro i m
    rw [peek_set tmp t i m _ (by rw [hs.1]; exact ht)]
    by_cases hi : i = t
    · subst hi
      rw [if_pos rfl, getD_set_eq _ n m _ 0 hn2]
      by_cases hm : m = n
      · subst hm; simp [peek]
      · simp [hm, peek]
    · simp [hi]

/-! ## The loops of `CalcGrad` in exact arithmetic -/

/-- Second inner loop: thread `t` receives, at entry `m`, the terms of the
positions whose subscript is `m`. -/
theorem scatterLoop_spec (w : List ℚ) (k l t T S : Nat) (sumxf grad : ℚ)
    (hw : w.length ≤ 2 ^ 31) (hwS : w.length = S) (ht : t < T) :
    ∀ (feats : List (Nat × ℚ)) (tmp : List (List ℚ)), Shape tmp T S →
      (∀ p ∈ feats, p.1 * k + l < S) →
      ∃ tmp2, scatterLoop w k l t sumxf grad feats tmp = some tmp2 ∧ Shape tmp2 T S ∧
        ∀ i m, peek tmp2 i m = peek tmp i m +
          if i = t then
            (feats.map fun p =>
              if p.1 * k + l = m then gradTerm p.2 (w.getD m 0) sumxf grad else 0).sum
          else 0 := by
  intro feats
  induction feats with
  | nil =>
    intro tmp hs _
    exact ⟨tmp, rfl, hs, by intro i m; simp⟩
  | cons p rest ih =>
    intro tmp hs hin
    obtain ⟨idx, x⟩ := p
    have h0 : idx * k + l < S := hin (idx, x) (List.mem_cons_self _ _)
    have hload := load_gradIndex w idx k l hw (by rw [hwS]; exact h0)
    have hidx : gradIndex idx k l = ((idx * k + l : Nat) : Int) :=
      gradIndex_eq idx k l (by omega)
    obtain ⟨tmp1, h1, hs1, hp1⟩ := addAt_spec tmp T S t (idx * k + l)
      (gradTerm x (w.getD (idx * k + l) 0) sumxf grad) hs ht h0
    obtain ⟨tmp2, h2, hs2, hp2⟩ := ih tmp1 hs1 fun q hq => hin q (List.mem_cons_of_mem _ hq)
    refine ⟨tmp2, ?_, hs2, ?_⟩
    · simp only [scatterLoop, hload]
      rw [hidx, h1]
      exact h2
    · intro i m
      rw [hp2 i m, hp1 i m, List.map_cons, List.sum_cons]
      by_cases hi : i = t
      · by_cases hm : idx * k + l = m
        · subst hm; simp [hi]; ring
        · have hm2 : ¬ m = idx * k + l := fun e => hm e.symm
          simp [hi, hm, hm2]
      · simp [hi]

/-- Both inner loops for factor `l`. -/
theorem factorStep_spec (w : List ℚ) (k t T S : Nat) (grad : ℚ) (feats : List (Nat × ℚ))
    (l : Nat) (tmp : List (List ℚ)) (hw : w.length ≤ 2 ^ 31) (hwS : w.length = S)
    (ht : t < T) (hs : Shape tmp T S) (hin : ∀ p ∈ feats, p.1 * k + l < S) :
    ∃ tmp2, factorStep w k t grad feats l tmp = some tmp2 ∧ Shape tmp2 T S ∧
      ∀ i m, peek tmp2 i m = peek tmp i m +
        if i = t then
          (feats.map fun p =>
            if p.1 * k + l = m then
              p.2 * (sumxfSpec w k l feats - w.getD m 0 * p.2) * grad
            else 0).sum
        else 0 := by
  have hsum := sumxfLoop_eq w k l hw feats 0 (by rw [hwS]; exact hin)
  rw [zero_add] at hsum
  obtain ⟨tmp2, h2, hs2, hp2⟩ :=
    scatterLoop_spec w k l t T S (sumxfSpec w k l feats) grad hw hwS ht feats tmp hs hin
  exact ⟨tmp2, by simp only [factorStep, hsum]; exact h2, hs2, hp2⟩

/-- A counted loop whose body keeps an invariant runs to completion and
establishes the invariant at its bound. -/
theorem forRange_inv {σ : Type} (inv : Nat → σ → Prop) (body : Nat → σ → Option σ) :
    ∀ (n : Nat) (s : σ), inv 0 s →
      (∀ i s1, i < n → inv i s1 → ∃ s2, body i s1 = some s2 ∧ inv (i + 1) s2) →
      ∃ s2, forRange n body s = some s2 ∧ inv n s2 := by
  intro n
  induction n with
  | zero => intro s h0 _; exact ⟨s, rfl, h0⟩
  | succ n ih =>
    intro s h0 hstep
    obtain ⟨s1, h1, hi1⟩ := ih s h0 fun i s1 hi => hstep i s1 (by omega)
    obtain ⟨s2, h2, hi2⟩ := hstep n s1 (by omega) hi1
    exact ⟨s2, by simp only [forRange, h1]; exact h2, hi2⟩

/-- Gradient of one row: thread `t` receives `rowContrib`, the others
nothing. -/
theorem rowGrad_spec (w : List ℚ) (k t T S : Nat) (grad : ℚ) (feats : List (Nat × ℚ))
    (tmp : List (List ℚ)) (hw : w.length ≤ 2 ^ 31) (hwS : w.length = S)
    (ht : t < T) (hs : Shape tmp T S)
    (hin : ∀ p ∈ feats, ∀ l, l < k → p.1 * k + l < S) :
    ∃ tmp2, rowGrad w k t grad feats tmp = some tmp2 ∧ Shape tmp2 T S ∧
      ∀ i m, peek tmp2 i m = peek tmp i m +
        if i = t then rowContrib w k grad feats m else 0 := by
  have h := forRange_inv
    (fun n (s : List (List ℚ)) => Shape s T S ∧
      ∀ i m, peek s i m = peek tmp i m +
        if i = t then
          ∑ l ∈ Finset.range n,
            (feats.map fun p =>
              if p.1 * k + l = m then
                p.2 * (sumxfSpec w k l feats - w.getD m 0 * p.2) * grad
              else 0).sum
        else 0)
    (factorStep w k t grad feats) k tmp ⟨hs, by intro i m; simp⟩
    (by
      intro l s1 hl ⟨hs1, hp1⟩
      obtain ⟨s2, h2, hs2, hp2⟩ := factorStep_spec w k t T S grad feats l s1 hw hwS ht hs1
        fun p hp => hin p hp l hl
      refine ⟨s2, h2, hs2, ?_⟩
      intro i m
      rw [hp2 i m, hp1 i m, Finset.sum_range_succ]
      by_cases hi : i = t
      · simp [hi]; ring
      · simp [hi])
  obtain ⟨tmp2, h2, hs2, hp2⟩ := h
  exact ⟨tmp2, h2, hs2, hp2⟩

/-- Total over the threads after one row. -/
theorem tot_rowGrad (T t : Nat) (tmp tmp2 : List (List ℚ)) (c : Nat → ℚ) (ht : t < T)
    (h : ∀ i m, peek tmp2 i m = peek tmp i m + if i = t then c m else 0) (m : Nat) :
    tot T tmp2 m = tot T tmp m + c m := by
  unfold tot
  simp only [h, Finset.sum_add_distrib]
  rw [Finset.sum_ite_eq' (Finset.range T) t fun _ => c m]
  simp [ht]

/-- Rows of one block: the total over the threads grows by the contributions of
the rows, whatever thread handles each row. -/
theorem rowsLoop_spec (fns : FmModelFns ℚ) (env : Env) (w : List ℚ) (k kb T S : Nat)
    (hw : w.length ≤ 2 ^ 31) (hwS : w.length = S) (hth : ∀ a b, env.thread_num a b < T) :
    ∀ (batch : List (Row ℚ)) (ib : Nat) (tmp : List (List ℚ)), Shape tmp T S →
      (∀ v ∈ batch, ∀ p ∈ v.feats, ∀ l, l < k → p.1 * k + l < S) →
      ∃ tmp2, rowsLoop fns env w k kb ib batch tmp = some tmp2 ∧ Shape tmp2 T S ∧
        ∀ m, tot T tmp2 m = tot T tmp m + gradSpec fns w k batch m := by
  intro batch
  induction batch with
  | nil =>
    intro ib tmp hs _
    exact ⟨tmp, rfl, hs, by intro m; simp [gradSpec]⟩
  | cons v rest ih =>
    intro ib tmp hs hin
    obtain ⟨tmp1, h1, hs1, hp1⟩ := rowGrad_spec w k (env.thread_num kb ib) T S
      (rowScalar fns w v) v.feats tmp hw hwS (hth kb ib) hs (hin v (List.mem_cons_self _ _))
    obtain ⟨tmp2, h2, hs2, hp2⟩ := ih (ib + 1) tmp1 hs1
      fun u hu => hin u (List.mem_cons_of_mem _ hu)
    refine ⟨tmp2, ?_, hs2, ?_⟩
    · simp only [rowsLoop]
      rw [show fns.PredToGrad v.label (fns.Predict w v) * v.weight = rowScalar fns w v from rfl,
        h1]
      exact h2
    · intro m
      rw [hp2 m, tot_rowGrad T _ tmp tmp1 _ (hth kb ib) hp1 m]
      simp only [gradSpec, List.map_cons, List.sum_cons]
      ring

/-- Entries outside well-shaped accumulators read as zero. -/
theorem peek_of_le (tmp : List (List ℚ)) (T S i m : Nat) (hs : Shape tmp T S) (hi : i < T)
    (hm : S ≤ m) : peek tmp i m = 0 := by
  unfold peek
  rw [List.getD_eq_default _ _ (by rw [hs.2 i hi]; exact hm)]

/-- Well-shaped accumulators whose entries are all zero are the zero
accumulators. -/
theorem eq_zeros_of_peek (tmp : List (List ℚ)) (T S : Nat) (hs : Shape tmp T S)
    (hz : ∀ i m, i < T → m < S → peek tmp i m = 0) :
    tmp = List.replicate T (List.replicate S 0) := by
  apply List.ext_getElem
  · simp [hs.1]
  · intro i h1 h2
    have hi : i < T := by rw [← hs.1]; exact h1
    have hlen := hs.2 i hi
    rw [List.getD_eq_getElem _ _ h1] at hlen
    rw [List.getElem_replicate]
    apply List.ext_getElem
    · simp [hlen]
    · intro m h3 h4
      have h := hz i m hi (by rw [← hlen]; exact h3)
      unfold peek at h
      rw [List.getD_eq_getElem _ _ h1, List.getD_eq_getElem _ _ h3] at h
      rw [h, List.getElem_replicate]

/-- One merge step `out_grad[j] += tmp_out_grad[i][j]; tmp_out_grad[i][j] = 0`. -/
theorem mergeAt_spec (T S i j : Nat) (g : List ℚ) (tmp : List (List ℚ)) (hg : g.length = S)
    (hs : Shape tmp T S) (hi : i < T) (hj : j < S) :
    ∃ g2 tmp2, mergeAt i j (g, tmp) = some (g2, tmp2) ∧ g2.length = S ∧ Shape tmp2 T S ∧
      (∀ m, g2.getD m 0 = if m = j then g.getD j 0 + peek tmp i j else g.getD m 0) ∧
      ∀ a m, peek tmp2 a m = if a = i ∧ m = j then 0 else peek tmp a m := by
  obtain ⟨hget, hlen⟩ := Shape_getElem? tmp T S i hs hi
  have hj2 : j < (tmp.getD i []).length := by rw [hlen]; exact hj
  have hgj : g[j]? = some (g.getD j 0) := getElem?_eq_some_getD g j 0 (by rw [hg]; exact hj)
  have hbj : (tmp.getD i [])[j]? = some (peek tmp i j) := getElem?_eq_some_getD _ j 0 hj2
  refine ⟨g.set j (g.getD j 0 + peek tmp i j), tmp.set i ((tmp.getD i []).set j 0),
    by simp only [mergeAt, hget, hgj, hbj], by rw [List.length_set]; exact hg,
    Shape_set tmp T S i _ hs (by rw [List.length_set]; exact hlen), ?_, ?_⟩
  · intro m
    exact getD_set_eq g j m _ 0 (by rw [hg]; exact hj)
  · intro a m
    rw [peek_set tmp i a m _ (by rw [hs.1]; exact hi)]
    by_cases ha : a = i
    · subst ha
      rw [if_pos rfl, getD_set_eq _ j m _ 0 hj2]
      by_cases hm : m = j
      · simp [hm]
      · simp [hm, peek]
    · simp [ha]

/-- Inner merge loop for thread `i`: its buffer is added to `out_grad` and
cleared. -/
theorem mergeInner_spec (T S i : Nat) (g : List ℚ) (tmp : List (List ℚ)) (hg : g.length = S)
    (hs : Shape tmp T S) (hi : i < T) :
    ∃ g2 tmp2, forRange S (mergeAt i) (g, tmp) = some (g2, tmp2) ∧ g2.length = S ∧
      Shape tmp2 T S ∧ (∀ m, g2.getD m 0 = g.getD m 0 + peek tmp i m) ∧
      ∀ a m, peek tmp2 a m = if a = i then 0 else peek tmp a m := by
  have h := forRange_inv
    (fun j (st : List ℚ × List (List ℚ)) => st.1.length = S ∧ Shape st.2 T S ∧
      (∀ m, st.1.getD m 0 = g.getD m 0 + if m < j then peek tmp i m else 0) ∧
      ∀ a m, peek st.2 a m = if a = i ∧ m < j then 0 else peek tmp a m)
    (mergeAt i) S (g, tmp) ⟨hg, hs, by intro m; simp, by intro a m; simp⟩
    (by
      intro j st hj ⟨h1, h2, h3, h4⟩
      obtain ⟨g1, tmp1⟩ := st
      obtain ⟨g2, tmp2, e, hg2, hs2, hv, hp⟩ := mergeAt_spec T S i j g1 tmp1 h1 h2 hi hj
      refine ⟨(g2, tmp2), e, hg2, hs2, ?_, ?_⟩
      · intro m
        show g2.getD m 0 = _
        rw [hv m]
        have e1 := h3 j
        have e2 := h4 i j
        have e3 := h3 m
        simp only [lt_irrefl, if_false, add_zero, and_false] at e1 e2
        by_cases hm : m = j
        · subst hm
          rw [if_pos rfl, e1, e2, if_pos (Nat.lt_succ_self _)]
        · have hlt : m < j + 1 ↔ m < j := by omega
          rw [if_neg hm]
          simp only [hlt]
          exact e3
      · intro a m
        show peek tmp2 a m = _
        rw [hp a m, h4 a m]
        by_cases ha : a = i
        · by_cases hm : m = j
          · simp [ha, hm]
          · have hlt : m < j + 1 ↔ m < j := by omega
            simp [ha, hm, hlt]
        · simp [ha])
  obtain ⟨st, e, h1, h2, h3, h4⟩ := h
  obtain ⟨g2, tmp2⟩ := st
  refine ⟨g2, tmp2, e, h1, h2, ?_, ?_⟩
  · intro m
    have e3 : g2.getD m 0 = g.getD m 0 + if m < S then peek tmp i m else 0 := h3 m
    rw [e3]
    by_cases hm : m < S
    · simp [hm]
    · simp [hm, peek_of_le tmp T S i m hs hi (by omega)]
  · intro a m
    have e4 : peek tmp2 a m = if a = i ∧ m < S then 0 else peek tmp a m := h4 a m
    rw [e4]
    by_cases ha : a = i
    · by_cases hm : m < S
      · simp [ha, hm]
      · simp [ha, hm, peek_of_le tmp T S i m hs hi (by omega)]
    · simp [ha]

/-- The merge after a block: `out_grad` receives the total over the threads and
every accumulator is zero again. -/
theorem mergeLoop_spec (T S : Nat) (g : List ℚ) (tmp : List (List ℚ)) (hg : g.length = S)
    (hs : Shape tmp T S) :
    ∃ g2, mergeLoop T S (g, tmp) = some (g2, List.replicate T (List.replicate S 0)) ∧
      g2.length = S ∧ ∀ m, g2.getD m 0 = g.getD m 0 + tot T tmp m := by
  have h := forRange_inv
    (fun i (st : List ℚ × List (List ℚ)) => st.1.length = S ∧ Shape st.2 T S ∧
      (∀ m, st.1.getD m 0 = g.getD m 0 + ∑ a ∈ Finset.range i, peek tmp a m) ∧
      ∀ a m, peek st.2 a m = if a < i then 0 else peek tmp a m)
    (fun i st1 => forRange S (mergeAt i) st1) T (g, tmp)
    ⟨hg, hs, by intro m; simp, by intro a m; simp⟩
    (by
      intro i st hi ⟨h1, h2, h3, h4⟩
      obtain ⟨g1, tmp1⟩ := st
      obtain ⟨g2, tmp2, e, hg2, hs2, hv, hp⟩ := mergeInner_spec T S i g1 tmp1 h1 h2 hi
      refine ⟨(g2, tmp2), e, hg2, hs2, ?_, ?_⟩
      · intro m
        show g2.getD m 0 = _
        have e3 : g1.getD m 0 = _ := h3 m
        have e4 : peek tmp1 i m = _ := h4 i m
        rw [hv m, e3, e4, Finset.sum_range_succ]
        simp [add_assoc]
      · intro a m
        show peek tmp2 a m = _
        have e4 : peek tmp1 a m = _ := h4 a m
        rw [hp a m, e4]
        by_cases ha : a = i
        · simp [ha]
        · have hlt : a < i + 1 ↔ a < i := by omega
          simp [ha, hlt])
  obtain ⟨st, e, h1, h2, h3, h4⟩ := h
  obtain ⟨g2, tmp2⟩ := st
  have hz : tmp2 = List.replicate T (List.replicate S 0) := by
    apply eq_zeros_of_peek tmp2 T S h2
    intro i m hi _
    have e4 : peek tmp2 i m = if i < T then 0 else peek tmp i m := h4 i m
    rw [e4, if_pos hi]
  subst hz
  exact ⟨g2, e, h1, fun m => h3 m⟩

/-- The zero accumulators are well shaped. -/
theorem Shape_zeros {α : Type} [Zero α] (T S : Nat) :
    Shape (List.replicate T (List.replicate S (0 : α))) T S := by
  refine ⟨by simp, ?_⟩
  intro i hi
  simp [List.getD_eq_getElem?_getD, List.getElem?_replicate, hi]

/-- The zero accumulators hold zero everywhere. -/
theorem peek_zeros (T S i m : Nat) :
    peek (List.replicate T (List.replicate S (0 : ℚ))) i m = 0 := by
  unfold peek
  by_cases hi : i < T <;> by_cases hm : m < S <;>
    simp [List.getD_eq_getElem?_getD, List.getElem?_replicate, hi, hm]

/-- The total of the zero accumulators is zero. -/
theorem tot_zeros (T S m : Nat) :
    tot T (List.replicate T (List.replicate S (0 : ℚ))) m = 0 := by
  unfold tot
  simp [peek_zeros]

/-- The accumulators in use are well shaped when the stored ones are. -/
theorem Shape_staticInit {α : Type} [Zero α] (tmpOpt : Option (List (List α))) (T S : Nat)
    (h : ∀ bufs, tmpOpt = some bufs → Shape bufs T S) : Shape (staticInit tmpOpt T S) T S := by
  cases tmpOpt with
  | none => exact Shape_zeros T S
  | some t => exact h t rfl

/-- One block: `out_grad` grows by what the accumulators held and by the
contributions of the rows of the block; the accumulators are left zero. -/
theorem blockStep_spec (fns : FmModelFns ℚ) (env : Env) (w : List ℚ) (k T S kb : Nat)
    (batch : List (Row ℚ)) (g : List ℚ) (tmpOpt : Option (List (List ℚ)))
    (hw : w.length ≤ 2 ^ 31) (hwS : w.length = S) (hth : ∀ a b, env.thread_num a b < T)
    (hg : g.length = S) (htmp : ∀ bufs, tmpOpt = some bufs → Shape bufs T S)
    (hin : ∀ v ∈ batch, ∀ p ∈ v.feats, ∀ l, l < k → p.1 * k + l < S) :
    ∃ g2, blockStep fns env w k T S kb batch (g, tmpOpt)
        = some (g2, some (List.replicate T (List.replicate S 0))) ∧
      g2.length = S ∧
      ∀ m, g2.getD m 0
        = g.getD m 0 + tot T (staticInit tmpOpt T S) m + gradSpec fns w k batch m := by
  obtain ⟨tmp1, h1, hs1, hp1⟩ := rowsLoop_spec fns env w k kb T S hw hwS hth batch 0
    (staticInit tmpOpt T S) (Shape_staticInit tmpOpt T S htmp) hin
  obtain ⟨g2, h2, hg2, hv2⟩ := mergeLoop_spec T S g tmp1 hg hs1
  refine ⟨g2, ?_, hg2, ?_⟩
  · simp only [blockStep, h1, h2]
  · intro m
    rw [hv2 m, hp1 m, add_assoc]

/-- Contributions of concatenated row lists add up. -/
theorem gradSpec_append (fns : FmModelFns ℚ) (w : List ℚ) (k : Nat) (a b : List (Row ℚ))
    (m : Nat) : gradSpec fns w k (a ++ b) m = gradSpec fns w k a m + gradSpec fns w k b m := by
  simp [gradSpec, List.map_append, List.sum_append]

/-- The block loop runs to completion on well-shaped accumulators and leaves
them zero once a block was processed; `out_grad` grows by what the
accumulators held at the first merge and by the contributions of all rows of
the pending blocks. -/
theorem blockLoop_spec (fns : FmModelFns ℚ) (env : Env) (w : List ℚ) (k T S : Nat)
    (hw : w.length ≤ 2 ^ 31) (hwS : w.length = S) (hth : ∀ a b, env.thread_num a b < T) :
    ∀ (blocks : List (List (Row ℚ))) (kb : Nat) (cur : List (Row ℚ)) (g : List ℚ)
      (tmpOpt : Option (List (List ℚ))), g.length = S →
      (∀ bufs, tmpOpt = some bufs → Shape bufs T S) →
      (∀ b ∈ blocks, ∀ v ∈ b, ∀ p ∈ v.feats, ∀ l, l < k → p.1 * k + l < S) →
      ∃ g2 tmpF cur2,
        whileNextAux (blockStep fns env w k T S) blocks kb cur (g, tmpOpt)
          = some ((g2, tmpF), cur2) ∧
        g2.length = S ∧
        (tmpF = tmpOpt ∨ tmpF = some (List.replicate T (List.replicate S 0))) ∧
        ∀ m, g2.getD m 0
          = g.getD m 0
            + (if blocks.isEmpty then 0 else tot T (staticInit tmpOpt T S) m)
            + gradSpec fns w k blocks.flatten m := by
  intro blocks
  induction blocks with
  | nil =>
    intro kb cur g tmpOpt hg _ _
    exact ⟨g, tmpOpt, cur, rfl, hg, Or.inl rfl, by intro m; simp [gradSpec]⟩
  | cons b bs ih =>
    intro kb cur g tmpOpt hg htmp hin
    obtain ⟨g1, h1, hg1, hv1⟩ := blockStep_spec fns env w k T S kb b g tmpOpt hw hwS hth hg
      htmp (hin b (List.mem_cons_self _ _))
    obtain ⟨g2, tmpF, cur2, h2, hg2, htmp2, hv2⟩ := ih (kb + 1) b g1
      (some (List.replicate T (List.replicate S 0))) hg1
      (by intro bufs hb; rw [← Option.some.inj hb]; exact Shape_zeros T S)
      fun c hc => hin c (List.mem_cons_of_mem _ hc)
    refine ⟨g2, tmpF, cur2, ?_, hg2, ?_, ?_⟩
    · simp only [whileNextAux, h1]
      exact h2
    · rcases htmp2 with h | h <;> exact Or.inr h
    · intro m
      have hz : (if bs.isEmpty then (0 : ℚ)
          else tot T (staticInit (some (List.replicate T (List.replicate S 0))) T S) m) = 0 := by
        split
        · rfl
        · exact tot_zeros T S m
      rw [hv2 m, hz, hv1 m, List.flatten_cons, gradSpec_append]
      simp only [List.isEmpty_cons, Bool.false_eq_true, if_false]
      ring

/-- The call `memset` on a buffer of exactly `size` entries. -/
theorem memsetZero_eq {α : Type} [Zero α] (out_grad : List α) (size : Nat)
    (h : out_grad.length = size) :
    memsetZero out_grad size = some (List.replicate size 0) := by
  simp [memsetZero, h.ge, List.drop_eq_nil_of_le h.le]

/-- The regularisation loop adds `reg_L2_V * weight[m]` to every entry. -/
theorem regLoop_spec (reg : ℚ) (w g : List ℚ) (S : Nat) (hwS : w.length = S)
    (hg : g.length = S) :
    ∃ g2, regLoop reg w S g = some g2 ∧ g2.length = S ∧
      ∀ m, m < S → g2.getD m 0 = g.getD m 0 + reg * w.getD m 0 := by
  have h := forRange_inv
    (fun i (g1 : List ℚ) => g1.length = S ∧
      ∀ m, g1.getD m 0 = g.getD m 0 + if m < i then reg * w.getD m 0 else 0)
    (regStep reg w) S g ⟨hg, by intro m; simp⟩
    (by
      intro i g1 hi ⟨h1, h2⟩
      have e1 : g1[i]? = some (g1.getD i 0) := getElem?_eq_some_getD g1 i 0 (by omega)
      have e2 : w[i]? = some (w.getD i 0) := getElem?_eq_some_getD w i 0 (by omega)
      refine ⟨g1.set i (g1.getD i 0 + reg * w.getD i 0), by simp only [regStep, e1, e2],
        by rw [List.length_set]; exact h1, ?_⟩
      intro m
      rw [getD_set_eq g1 i m _ 0 (by omega)]
      by_cases hm : m = i
      · subst hm
        rw [if_pos rfl, h2 m, if_neg (lt_irrefl _), if_pos (Nat.lt_succ_self _), add_zero]
      · have hlt : m < i + 1 ↔ m < i := by omega
        rw [if_neg hm, h2 m]
        simp only [hlt])
  obtain ⟨g2, e, h1, h2⟩ := h
  refine ⟨g2, e, h1, ?_⟩
  intro m hm
  rw [h2 m, if_pos hm]

/-- Zero accumulators are what the block loop starts from. -/
theorem staticInit_of_ZeroAcc (self : FmObjFunction ℚ) (size : Nat) (h : ZeroAcc self size) :
    staticInit self.tmp_out_grad self.nthread size
      = List.replicate self.nthread (List.replicate size 0) := by
  unfold ZeroAcc at h
  cases hq : self.tmp_out_grad with
  | none => rfl
  | some t => exact h t hq

/-- Zero accumulators add nothing at the first merge. -/
theorem staleAcc_of_ZeroAcc (self : FmObjFunction ℚ) (size m : Nat) (h : ZeroAcc self size) :
    staleAcc self size m = 0 := by
  unfold staleAcc
  split
  · rfl
  · rw [staticInit_of_ZeroAcc self size h, tot_zeros]

/-- A safe `CalcGrad` call returns.  The accumulators are left as they were or
zero, and `out_grad` holds at every entry what the accumulators held on entry,
the contributions of all rows of the shard and, on rank 0,
`reg_L2_V * weight[m]`. -/
theorem CalcGrad_spec (fns : FmModelFns ℚ) (env : Env) (self : FmObjFunction ℚ)
    (out_grad w : List ℚ) (size : Nat) (hsize : size = self.model.param.num_weight)
    (hsafe : SafeCall env self out_grad w size) :
    ∃ it tmpF g,
      CalcGrad fns env self out_grad w size
        = .done () ({ self with dtrain := it, tmp_out_grad := tmpF }, g) ∧
      g.length = size ∧
      (tmpF = self.tmp_out_grad ∨
        tmpF = some (List.replicate self.nthread (List.replicate size 0))) ∧
      ∀ m, m < size →
        g.getD m 0
          = staleAcc self size m
            + gradSpec fns w self.model.param.nfactor self.dtrain.data.flatten m
            + if env.rank = 0 then self.reg_L2_V * w.getD m 0 else 0 := by
  obtain ⟨hw, hog, h31, hth, htmp, hin⟩ := hsafe
  obtain ⟨g1, tmpF, cur2, h1, hg1, htmpF, hv1⟩ :=
    blockLoop_spec fns env w self.model.param.nfactor self.nthread size (by omega) hw hth
      self.dtrain.data 0 self.dtrain.row_ (List.replicate size 0) self.tmp_out_grad
      (by simp) htmp hin
  have hwn : whileNext (blockStep fns env w self.model.param.nfactor self.nthread size)
      self.dtrain.BeforeFirst (List.replicate size 0, self.tmp_out_grad)
      = some ((g1, tmpF), { self.dtrain with pending := [], row_ := cur2 }) := by
    simp only [whileNext, whileNextFrom, RowBlockIter.BeforeFirst, h1]
  have hzero : ∀ m, (List.replicate size (0 : ℚ)).getD m 0 = 0 := by
    intro m
    by_cases hm : m < size <;> simp [List.getD_eq_getElem?_getD, List.getElem?_replicate, hm]
  have hv : ∀ m, g1.getD m 0
      = staleAcc self size m
        + gradSpec fns w self.model.param.nfactor self.dtrain.data.flatten m := by
    intro m
    rw [hv1 m, hzero m, zero_add]
    rfl
  have hne : ¬ size ≠ self.model.param.num_weight := fun h => h hsize
  by_cases hr : env.rank = 0
  · by_cases hz : self.reg_L2_V = 0
    · refine ⟨{ self.dtrain with pending := [], row_ := cur2 }, tmpF, g1, ?_, hg1, htmpF, ?_⟩
      · simp only [CalcGrad, if_neg hne, memsetZero_eq out_grad size hog, hwn, if_pos hr, hz,
          ne_eq, not_true_eq_false, if_false]
      · intro m _
        rw [hv m, if_pos hr, hz]
        ring
    · obtain ⟨g2, h2, hg2, hv2⟩ := regLoop_spec self.reg_L2_V w g1 size hw hg1
      rw [hsize] at h2
      refine ⟨{ self.dtrain with pending := [], row_ := cur2 }, tmpF, g2, ?_, hg2, htmpF, ?_⟩
      · simp only [CalcGrad, if_neg hne, memsetZero_eq out_grad size hog, hwn, if_pos hr, ne_eq,
          hz, not_false_eq_true, if_true, h2]
      · intro m hm
        rw [hv2 m hm, hv m, if_pos hr]
  · refine ⟨{ self.dtrain with pending := [], row_ := cur2 }, tmpF, g1, ?_, hg1, htmpF, ?_⟩
    · simp only [CalcGrad, if_neg hne, memsetZero_eq out_grad size hog, hwn, if_neg hr]
    · intro m _
      rw [hv m, if_neg hr, add_zero]

/-- A buffer is determined by its length and its entries. -/
theorem eq_map_range (g : List ℚ) (S : Nat) (f : Nat → ℚ) (hg : g.length = S)
    (h : ∀ m, m < S → g.getD m 0 = f m) : g = (List.range S).map f := by
  apply List.ext_getElem
  · simp [hg]
  · intro m h1 h2
    have e := h m (by omega)
    rw [List.getD_eq_getElem _ _ h1] at e
    simp [e]

/-! ## Claims about `CalcGrad` -/

/-- The terms one factor adds at entry `m`, position by position, in
brute-force form. -/
theorem factor_sum_eq_bruteforce (w : List ℚ) (k l : Nat) (feats : List (Nat × ℚ))
    (grad : ℚ) (m : Nat) :
    (feats.map fun p =>
        if p.1 * k + l = m then p.2 * (sumxfSpec w k l feats - w.getD m 0 * p.2) * grad
        else 0).sum
      = ∑ j : Fin feats.length,
          if (feats.get j).1 * k + l = m then
            grad * (feats.get j).2 *
              ∑ j2 ∈ (Finset.univ : Finset (Fin feats.length)).erase j,
                (feats.get j2).2 * w.getD ((feats.get j2).1 * k + l) 0
          else 0 := by
  rw [sum_map_eq_sum_fin]
  apply Finset.sum_congr rfl
  intro j _
  by_cases h : (feats.get j).1 * k + l = m
  · rw [if_pos h, if_pos h, Finset.sum_erase_eq_sub (Finset.mem_univ j), sumxfSpec,
      sum_map_eq_sum_fin, ← h]
    have hcomm : ∀ j2 : Fin feats.length,
        (feats.get j2).2 * w.getD ((feats.get j2).1 * k + l) 0
          = w.getD ((feats.get j2).1 * k + l) 0 * (feats.get j2).2 := fun _ => mul_comm _ _
    simp only [hcomm]
    ring
  · rw [if_neg h, if_neg h]

/-- Claim C1 (exclude-self formula against brute force).  For a weight
buffer `w`, any number `k` of latent factors (in particular `k ≥ 1`), any
factor `l` (in particular `l < k`), a row whose subscripts
`index[j] * k + l` all lie inside `w` (itself addressable by an `int`) and a
scalar `grad`:

* the first inner loop of `CalcGrad` returns
  `sumxf = Σ_j w[index[j] * k + l] * value[j]`, the read `weight[n]` at
  position `j` returns `w[index[j] * k + l]`, and the amount computed for
  position `j`, `value[j] * (sumxf - w[n] * value[j]) * grad`, equals the
  brute-force `grad * value[j] * Σ_{j2 ≠ j} value[j2] * w[index[j2] * k + l]`;
* on any accumulators of `T` buffers of the length of `w`, whatever they hold,
  and for any thread `t < T`, the two inner loops for factor `l` return, keep
  the shape, leave the buffers of the other threads unchanged and add to entry
  `m` of the buffer of thread `t` exactly the brute-force amounts of the
  positions `j` with `index[j] * k + l = m`;
* if the subscripts lie inside `w` for every factor below `k`, the loop over
  the factors adds to entry `m` of the buffer of thread `t` the brute-force
  amounts of all factors `l2 < k` and positions `j` with
  `index[j] * k + l2 = m`, and nothing elsewhere;
* on the example row (`k = 2`, indices `[0, 2]`, values `[1, 1]`,
  `v_0 = [0.1, 0.2]`, `v_2 = [0.3, 0.4]`) the row adds `0.3 grad, 0.4 grad` to
  feature 0 and `0.1 grad, 0.2 grad` to feature 2. -/
theorem calcGrad_term_eq_bruteforce (w : List ℚ) (k l : Nat) (feats : List (Nat × ℚ))
    (grad : ℚ) (hw : w.length ≤ 2 ^ 31)
    (hin : ∀ p ∈ feats, p.1 * k + l < w.length) :
    (∃ sumxf : ℚ,
      sumxfLoop w k l feats 0 = some sumxf ∧
      sumxf = ∑ j : Fin feats.length,
        w.getD ((feats.get j).1 * k + l) 0 * (feats.get j).2 ∧
      ∀ j : Fin feats.length,
        load w (gradIndex (feats.get j).1 k l)
          = some (w.getD ((feats.get j).1 * k + l) 0) ∧
        gradTerm (feats.get j).2 (w.getD ((feats.get j).1 * k + l) 0) sumxf grad
          = grad * (feats.get j).2 *
              ∑ j2 ∈ (Finset.univ : Finset (Fin feats.length)).erase j,
                (feats.get j2).2 * w.getD ((feats.get j2).1 * k + l) 0) ∧
    (∀ (t T : Nat) (tmp : List (List ℚ)), Shape tmp T w.length → t < T →
      ∃ tmp2, factorStep w k t grad feats l tmp = some tmp2 ∧ Shape tmp2 T w.length ∧
        ∀ i m, peek tmp2 i m = peek tmp i m +
          if i = t then
            ∑ j : Fin feats.length,
              if (feats.get j).1 * k + l = m then
                grad * (feats.get j).2 *
                  ∑ j2 ∈ (Finset.univ : Finset (Fin feats.length)).erase j,
                    (feats.get j2).2 * w.getD ((feats.get j2).1 * k + l) 0
              else 0
          else 0) ∧
    (∀ (t T : Nat) (tmp : List (List ℚ)), Shape tmp T w.length → t < T →
      (∀ p ∈ feats, ∀ l2, l2 < k → p.1 * k + l2 < w.length) →
      ∃ tmp2, rowGrad w k t grad feats tmp = some tmp2 ∧ Shape tmp2 T w.length ∧
        ∀ i m, peek tmp2 i m = peek tmp i m +
          if i = t then
            ∑ l2 ∈ Finset.range k, ∑ j : Fin feats.length,
              if (feats.get j).1 * k + l2 = m then
                grad * (feats.get j).2 *
                  ∑ j2 ∈ (Finset.univ : Finset (Fin feats.length)).erase j,
                    (feats.get j2).2 * w.getD ((feats.get j2).1 * k + l2) 0
              else 0
          else 0) ∧
    (∀ g : ℚ,
      rowGrad [1/10, 2/10, 0, 0, 3/10, 4/10] 2 0 g [(0, 1), (2, 1)] [[0, 0, 0, 0, 0, 0]]
        = some [[3/10 * g, 4/10 * g, 0, 0, 1/10 * g, 2/10 * g]]) := by
  refine ⟨⟨_, sumxfLoop_eq w k l hw feats 0 hin, ?_, ?_⟩, ?_, ?_, ?_⟩
  · rw [zero_add, sum_map_eq_sum_fin]
  · intro j
    have hj : (feats.get j).1 * k + l < w.length := hin _ (List.get_mem _ _ _)
    refine ⟨load_gradIndex w _ k l hw hj, ?_⟩
    rw [Finset.sum_erase_eq_sub (Finset.mem_univ j), zero_add, sum_map_eq_sum_fin]
    have hcomm : ∀ j2 : Fin feats.length,
        (feats.get j2).2 * w.getD ((feats.get j2).1 * k + l) 0
          = w.getD ((feats.get j2).1 * k + l) 0 * (feats.get j2).2 := fun _ => mul_comm _ _
    simp only [hcomm, gradTerm]
    ring
  · intro t T tmp hs ht
    obtain ⟨tmp2, h2, hs2, hp2⟩ :=
      factorStep_spec w k t T w.length grad feats l tmp hw rfl ht hs hin
    refine ⟨tmp2, h2, hs2, ?_⟩
    intro i m
    rw [hp2 i m, factor_sum_eq_bruteforce]
  · intro t T tmp hs ht hall
    obtain ⟨tmp2, h2, hs2, hp2⟩ :=
      rowGrad_spec w k t T w.length grad feats tmp hw rfl ht hs hall
    refine ⟨tmp2, h2, hs2, ?_⟩
    intro i m
    rw [hp2 i m, rowContrib]
    simp only [factor_sum_eq_bruteforce]
  · intro g
    simp [rowGrad, forRange, factorStep, sumxfLoop, scatterLoop, load, gradIndex, toInt32,
      addAt, gradTerm]

/-- Instance of C1 on the example row with `grad = 1`, thread 1 of two and
accumulators that already hold values: factor 0 adds `0.3` at entry 0 and
`0.1` at entry 4 of the buffer of thread 1 and leaves the rest as it was. -/
theorem calcGrad_term_eq_bruteforce_witness :
    gradTerm (1 : ℚ) (1/10) (1/10 + 3/10) 1 = 3/10 ∧
    (∃ sumxf : ℚ,
      sumxfLoop [1/10, 2/10, 0, 0, 3/10, 4/10] 2 0 [(0, 1), (2, 1)] 0 = some sumxf) ∧
    ∃ tmp2 : List (List ℚ),
      factorStep [1/10, 2/10, 0, 0, 3/10, 4/10] 2 1 1 [(0, 1), (2, 1)] 0
        [[1, 2, 3, 4, 5, 6], [7, 7, 7, 7, 7, 7]] = some tmp2 ∧
      peek tmp2 1 0 = 7 + 3/10 ∧ peek tmp2 1 4 = 7 + 1/10 ∧ peek tmp2 1 1 = 7 ∧
      peek tmp2 0 0 = 1 := by
  obtain ⟨⟨s, hs, _, _⟩, hB, _, _⟩ :=
    calcGrad_term_eq_bruteforce [1/10, 2/10, 0, 0, 3/10, 4/10] 2 0 [(0, 1), (2, 1)] 1
      (by simp) (by simp)
  obtain ⟨tmp2, h2, _, hp⟩ := hB 1 2 [[1, 2, 3, 4, 5, 6], [7, 7, 7, 7, 7, 7]]
    (by
      refine ⟨rfl, ?_⟩
      intro i hi
      have hi2 : i = 0 ∨ i = 1 := by omega
      rcases hi2 with rfl | rfl <;> rfl)
    (by decide)
  refine ⟨by simp [gradTerm], ⟨s, hs⟩, tmp2, h2, ?_, ?_, ?_, ?_⟩
  · rw [hp 1 0]
    simp [peek, Fin.sum_univ_succ, Finset.sum_erase_eq_sub]
  · rw [hp 1 4]
    simp [peek, Fin.sum_univ_succ, Finset.sum_erase_eq_sub]
  · rw [hp 1 1]
    simp [peek, Fin.sum_univ_succ]
  · rw [hp 0 0]
    simp [peek]

/-- Claim C5 (thread-local accumulation equals the sequential sum).  In exact
arithmetic, for a memory-safe call on a rank other than 0 whose accumulators
are zero on entry (or not yet created): `CalcGrad` returns, `out_grad` holds at
every index `n < size` the sum over all rows of the shard, all factors `l` and
all positions `j` with `index[j] * nfactor + l = n` of
`value[j] * (sumxf_l - w[n] * value[j]) * grad_row`, and the accumulators, if
created, are all zero on return.  The result depends neither on the thread
assignment, nor on the block boundaries, nor on the previous content of
`out_grad`: a second such call over the same rows in other blocks, with
another thread assignment and another `out_grad`, returns the same
`out_grad`. -/
theorem calcGrad_accumulation_eq_sequential_sum (fns : FmModelFns ℚ) (env : Env)
    (self : FmObjFunction ℚ) (out_grad w : List ℚ) (size : Nat)
    (hsize : size = self.model.param.num_weight) (hrank : env.rank ≠ 0)
    (hnt : 1 ≤ self.nthread) (hsafe : SafeCall env self out_grad w size)
    (hzero : ZeroAcc self size) :
    (∃ it tmpF,
      CalcGrad fns env self out_grad w size
        = .done () ({ self with dtrain := it, tmp_out_grad := tmpF },
            (List.range size).map
              (gradSpec fns w self.model.param.nfactor self.dtrain.data.flatten)) ∧
      ∀ bufs, tmpF = some bufs →
        bufs = List.replicate self.nthread (List.replicate size 0)) ∧
    ∀ (env2 : Env) (self2 : FmObjFunction ℚ) (out_grad2 : List ℚ),
      env2.rank ≠ 0 → SafeCall env2 self2 out_grad2 w size → ZeroAcc self2 size →
      size = self2.model.param.num_weight →
      self2.model.param.nfactor = self.model.param.nfactor →
      self2.dtrain.data.flatten = self.dtrain.data.flatten →
      (CalcGrad fns env2 self2 out_grad2 w size).state?.map Prod.snd
        = (CalcGrad fns env self out_grad w size).state?.map Prod.snd := by
  have _ := hnt
  have key : ∀ (e : Env) (s : FmObjFunction ℚ) (og : List ℚ), e.rank ≠ 0 →
      SafeCall e s og w size → ZeroAcc s size → size = s.model.param.num_weight →
      ∃ it tmpF,
        CalcGrad fns e s og w size
          = .done () ({ s with dtrain := it, tmp_out_grad := tmpF },
              (List.range size).map
                (gradSpec fns w s.model.param.nfactor s.dtrain.data.flatten)) ∧
        ∀ bufs, tmpF = some bufs → bufs = List.replicate s.nthread (List.replicate size 0) := by
    intro e s og hr hs hz hsz
    obtain ⟨it, tmpF, g, h1, hg, htmp, hv⟩ := CalcGrad_spec fns e s og w size hsz hs
    have hgm : g = (List.range size).map
        (gradSpec fns w s.model.param.nfactor s.dtrain.data.flatten) := by
      apply eq_map_range g size _ hg
      intro m hm
      rw [hv m hm, if_neg hr, add_zero, staleAcc_of_ZeroAcc s size m hz, zero_add]
    refine ⟨it, tmpF, by rw [h1, hgm], ?_⟩
    intro bufs hb
    rcases htmp with h | h
    · exact hz bufs (by rw [← h]; exact hb)
    · rw [h] at hb
      exact (Option.some.inj hb).symm
  refine ⟨key env self out_grad hrank hsafe hzero hsize, ?_⟩
  intro env2 self2 og2 hr2 hs2 hz2 hsz2 hk hrows
  obtain ⟨it1, t1, h1, _⟩ := key env self out_grad hrank hsafe hzero hsize
  obtain ⟨it2, t2, h2, _⟩ := key env2 self2 og2 hr2 hs2 hz2 hsz2
  rw [h1, h2, hk, hrows]
  rfl

/-- Instance of C5: two threads, two blocks of one row each (the example row
of the specification and a second row on feature 1), `grad = 1` for every row,
stale content in `out_grad`. -/
theorem calcGrad_accumulation_eq_sequential_sum_witness :
    (CalcGrad ⟨fun _ _ => 0, fun _ _ => 0, fun _ _ => 0, fun _ _ => 1⟩ ⟨1, fun k _ => k % 2⟩
      ({ nthread := 2, reg_L2_V := 5, model := ⟨⟨3, 2, 6, 2, 0⟩⟩,
          dtrain := ⟨[[⟨1, 1, [(0, 1), (2, 1)]⟩], [⟨0, 1, [(1, 2)]⟩]], [], [], 3⟩,
          dval := ⟨[], [], [], 0⟩, model_in := "NULL", val_data := "NULL",
          tmp_out_grad := none } : FmObjFunction ℚ)
      [9, 9, 9, 9, 9, 9] [1/10, 2/10, 0, 0, 3/10, 4/10] 6).state?.map Prod.snd
      = some [3/10, 4/10, 0, 0, 1/10, 2/10] := by
  obtain ⟨⟨it, tmpF, h, _⟩, _⟩ := calcGrad_accumulation_eq_sequential_sum
    ⟨fun _ _ => 0, fun _ _ => 0, fun _ _ => 0, fun _ _ => 1⟩ ⟨1, fun k _ => k % 2⟩
    ({ nthread := 2, reg_L2_V := 5, model := ⟨⟨3, 2, 6, 2, 0⟩⟩,
        dtrain := ⟨[[⟨1, 1, [(0, 1), (2, 1)]⟩], [⟨0, 1, [(1, 2)]⟩]], [], [], 3⟩,
        dval := ⟨[], [], [], 0⟩, model_in := "NULL", val_data := "NULL",
        tmp_out_grad := none } : FmObjFunction ℚ)
    [9, 9, 9, 9, 9, 9] [1/10, 2/10, 0, 0, 3/10, 4/10] 6 rfl (by decide) (by decide)
    (by
      refine ⟨rfl, rfl, by norm_num, ?_, ?_, ?_⟩
      · intro a b; exact Nat.mod_lt _ (by decide)
      · intro bufs hb; simp at hb
      · intro b hb v hv p hp l hl
        simp at hb hl
        rcases hb with rfl | rfl <;> simp at hv <;> subst hv <;> simp at hp
        · rcases hp with rfl | rfl <;> simp <;> omega
        · subst hp; simp; omega)
    (by intro bufs hb; simp at hb)
  rw [h]
  simp [Outcome.state?, gradSpec, rowContrib, sumxfSpec, rowScalar, Finset.sum_range_succ,
    List.range_succ]

/-- Claim C3 (the L2 gradient term is added by the lead worker only).  In
exact arithmetic, for a memory-safe call: `CalcGrad` returns on rank 0 and on
any other rank, and for every index `i < num_weight` the entry `out_grad[i]`
of rank 0 is the entry of the other rank plus `reg_L2_V * w[i]`; on the other
rank the returned `out_grad` is the same whatever the value of `reg_L2_V`. -/
theorem calcGrad_l2_lead_only (fns : FmModelFns ℚ) (env0 env1 : Env)
    (self : FmObjFunction ℚ) (out_grad w : List ℚ) (size : Nat)
    (hsize : size = self.model.param.num_weight) (h0 : env0.rank = 0) (h1 : env1.rank ≠ 0)
    (hs0 : SafeCall env0 self out_grad w size) (hs1 : SafeCall env1 self out_grad w size) :
    ∃ g0 g1,
      (CalcGrad fns env0 self out_grad w size).state?.map Prod.snd = some g0 ∧
      (CalcGrad fns env1 self out_grad w size).state?.map Prod.snd = some g1 ∧
      g0.length = size ∧ g1.length = size ∧
      (∀ i, i < self.model.param.num_weight →
        g0.getD i 0 = g1.getD i 0 + self.reg_L2_V * w.getD i 0) ∧
      ∀ reg2 : ℚ,
        (CalcGrad fns env1 { self with reg_L2_V := reg2 } out_grad w size).state?.map Prod.snd
          = some g1 := by
  obtain ⟨it0, t0, g0, e0, hg0, _, hv0⟩ := CalcGrad_spec fns env0 self out_grad w size hsize hs0
  obtain ⟨it1, t1, g1, e1, hg1, _, hv1⟩ := CalcGrad_spec fns env1 self out_grad w size hsize hs1
  refine ⟨g0, g1, by rw [e0]; rfl, by rw [e1]; rfl, hg0, hg1, ?_, ?_⟩
  · intro i hi
    rw [← hsize] at hi
    rw [hv0 i hi, hv1 i hi, if_pos h0, if_neg h1, add_zero]
  · intro reg2
    obtain ⟨it2, t2, g2, e2, hg2, _, hv2⟩ := CalcGrad_spec fns env1
      { self with reg_L2_V := reg2 } out_grad w size hsize hs1
    have hgg : g2 = g1 := by
      rw [eq_map_range g2 size _ hg2 fun m hm => hv2 m hm,
        eq_map_range g1 size _ hg1 fun m hm => hv1 m hm]
      apply List.map_congr_left
      intro m _
      simp only [if_neg h1]
      rfl
    rw [e2, ← hgg]
    rfl

/-- Instance of C3 on the example row with `grad = 1`, `reg_L2_V = 10`. -/
theorem calcGrad_l2_lead_only_witness :
    ∃ g0 g1 : List ℚ,
      (CalcGrad ⟨fun _ _ => 0, fun _ _ => 0, fun _ _ => 0, fun _ _ => 1⟩ ⟨0, fun _ _ => 0⟩
        ({ nthread := 1, reg_L2_V := 10, model := ⟨⟨3, 2, 6, 1, 0⟩⟩,
            dtrain := ⟨[[⟨1, 1, [(0, 1), (2, 1)]⟩]], [], [], 3⟩,
            dval := ⟨[], [], [], 0⟩, model_in := "NULL", val_data := "NULL",
            tmp_out_grad := none } : FmObjFunction ℚ)
        [0, 0, 0, 0, 0, 0] [1/10, 2/10, 0, 0, 3/10, 4/10] 6).state?.map Prod.snd = some g0 ∧
      (CalcGrad ⟨fun _ _ => 0, fun _ _ => 0, fun _ _ => 0, fun _ _ => 1⟩ ⟨1, fun _ _ => 0⟩
        ({ nthread := 1, reg_L2_V := 10, model := ⟨⟨3, 2, 6, 1, 0⟩⟩,
            dtrain := ⟨[[⟨1, 1, [(0, 1), (2, 1)]⟩]], [], [], 3⟩,
            dval := ⟨[], [], [], 0⟩, model_in := "NULL", val_data := "NULL",
            tmp_out_grad := none } : FmObjFunction ℚ)
        [0, 0, 0, 0, 0, 0] [1/10, 2/10, 0, 0, 3/10, 4/10] 6).state?.map Prod.snd = some g1 ∧
      g0.getD 0 0 = g1.getD 0 0 + 10 * (1 / 10) := by
  obtain ⟨g0, g1, e0, e1, _, _, hv, _⟩ := calcGrad_l2_lead_only
    ⟨fun _ _ => 0, fun _ _ => 0, fun _ _ => 0, fun _ _ => 1⟩ ⟨0, fun _ _ => 0⟩
    ⟨1, fun _ _ => 0⟩
    ({ nthread := 1, reg_L2_V := 10, model := ⟨⟨3, 2, 6, 1, 0⟩⟩,
        dtrain := ⟨[[⟨1, 1, [(0, 1), (2, 1)]⟩]], [], [], 3⟩,
        dval := ⟨[], [], [], 0⟩, model_in := "NULL", val_data := "NULL",
        tmp_out_grad := none } : FmObjFunction ℚ)
    [0, 0, 0, 0, 0, 0] [1/10, 2/10, 0, 0, 3/10, 4/10] 6 rfl rfl (by decide)
    (by
      refine ⟨rfl, rfl, by norm_num, ?_, ?_, ?_⟩
      · intro a b; exact Nat.zero_lt_one
      · intro bufs hb; simp at hb
      · intro b hb v hv p hp l hl
        simp at hb hl
        subst hb
        simp at hv
        subst hv
        simp at hp
        rcases hp with rfl | rfl <;> simp <;> omega)
    (by
      refine ⟨rfl, rfl, by norm_num, ?_, ?_, ?_⟩
      · intro a b; exact Nat.zero_lt_one
      · intro bufs hb; simp at hb
      · intro b hb v hv p hp l hl
        simp at hb hl
        subst hb
        simp at hv
        subst hv
        simp at hp
        rcases hp with rfl | rfl <;> simp <;> omega)
  refine ⟨g0, g1, e0, e1, ?_⟩
  have h := hv 0 (by decide)
  simpa using h

/-! ## Memory safety for any carrier -/

/-- An in-bounds read through the machine subscript succeeds. -/
theorem load_gradIndex_some {α : Type} (w : List α) (idx k i : Nat) (hw : w.length ≤ 2 ^ 31)
    (h : idx * k + i < w.length) : ∃ x, load w (gradIndex idx k i) = some x := by
  rw [gradIndex_eq idx k i (by omega), load_natCast]
  exact ⟨w[idx * k + i], List.getElem?_eq_getElem h⟩

/-- The first inner loop returns when the row addresses the weights in
bounds. -/
theorem sumxfLoop_some {α : Type} [Add α] [Mul α] (w : List α) (k l : Nat)
    (hw : w.length ≤ 2 ^ 31) :
    ∀ (feats : List (Nat × α)) (s : α), (∀ p ∈ feats, p.1 * k + l < w.length) →
      ∃ r, sumxfLoop w k l feats s = some r := by
  intro feats
  induction feats with
  | nil => intro s _; exact ⟨s, rfl⟩
  | cons p rest ih =>
    intro s h
    obtain ⟨idx, x⟩ := p
    obtain ⟨wn, hwn⟩ := load_gradIndex_some w idx k l hw (h (idx, x) (List.mem_cons_self _ _))
    obtain ⟨r, hr⟩ := ih (s + wn * x) fun q hq => h q (List.mem_cons_of_mem _ hq)
    exact ⟨r, by simp only [sumxfLoop, hwn]; exact hr⟩

/-- An in-bounds accumulator update succeeds and keeps the shape. -/
theorem addAt_some {α : Type} [Add α] (tmp : List (List α)) (T S t n : Nat) (d : α)
    (hs : Shape tmp T S) (ht : t < T) (hn : n < S) :
    ∃ tmp2, addAt tmp t (n : Int) d = some tmp2 ∧ Shape tmp2 T S := by
  obtain ⟨hget, hlen⟩ := Shape_getElem? tmp T S t hs ht
  have hn2 : n < (tmp.getD t []).length := by rw [hlen]; exact hn
  have hload : load (tmp.getD t []) (n : Int) = some (tmp.getD t [])[n] := by
    rw [load_natCast]
    exact List.getElem?_eq_getElem hn2
  exact ⟨tmp.set t ((tmp.getD t []).set n ((tmp.getD t [])[n] + d)),
    by simp only [addAt, hget, hload, Int.toNat_ofNat],
    Shape_set tmp T S t _ hs (by rw [List.length_set]; exact hlen)⟩

/-- The second inner loop returns and keeps the shape. -/
theorem scatterLoop_some {α : Type} [Add α] [Sub α] [Mul α] (w : List α)
    (k l t T S : Nat) (sumxf grad : α) (hw : w.length ≤ 2 ^ 31) (hwS : w.length = S)
    (ht : t < T) :
    ∀ (feats : List (Nat × α)) (tmp : List (List α)), Shape tmp T S →
      (∀ p ∈ feats, p.1 * k + l < S) →
      ∃ tmp2, scatterLoop w k l t sumxf grad feats tmp = some tmp2 ∧ Shape tmp2 T S := by
  intro feats
  induction feats with
  | nil => intro tmp hs _; exact ⟨tmp, rfl, hs⟩
  | cons p rest ih =>
    intro tmp hs hin
    obtain ⟨idx, x⟩ := p
    have h0 : idx * k + l < S := hin (idx, x) (List.mem_cons_self _ _)
    obtain ⟨wn, hwn⟩ := load_gradIndex_some w idx k l hw (by rw [hwS]; exact h0)
    have hidx : gradIndex idx k l = ((idx * k + l : Nat) : Int) :=
      gradIndex_eq idx k l (by omega)
    obtain ⟨tmp1, h1, hs1⟩ := addAt_some tmp T S t (idx * k + l) (gradTerm x wn sumxf grad)
      hs ht h0
    obtain ⟨tmp2, h2, hs2⟩ := ih tmp1 hs1 fun q hq => hin q (List.mem_cons_of_mem _ hq)
    refine ⟨tmp2, ?_, hs2⟩
    simp only [scatterLoop, hwn]
    rw [hidx, h1]
    exact h2

/-- The gradient of one row returns and keeps the shape. -/
theorem rowGrad_some {α : Type} [Zero α] [Add α] [Sub α] [Mul α] (w : List α)
    (k t T S : Nat) (grad : α) (feats : List (Nat × α)) (tmp : List (List α))
    (hw : w.length ≤ 2 ^ 31) (hwS : w.length = S) (ht : t < T) (hs : Shape tmp T S)
    (hin : ∀ p ∈ feats, ∀ l, l < k → p.1 * k + l < S) :
    ∃ tmp2, rowGrad w k t grad feats tmp = some tmp2 ∧ Shape tmp2 T S := by
  apply forRange_inv (fun _ (s : List (List α)) => Shape s T S)
    (factorStep w k t grad feats) k tmp hs
  intro l s1 hl hs1
  obtain ⟨sumxf, hsum⟩ := sumxfLoop_some w k l hw feats 0
    (by intro p hp; rw [hwS]; exact hin p hp l hl)
  obtain ⟨s2, h2, hs2⟩ := scatterLoop_some w k l t T S sumxf grad hw hwS ht feats s1 hs1
    fun p hp => hin p hp l hl
  exact ⟨s2, by simp only [factorStep, hsum]; exact h2, hs2⟩

/-- The rows of a block are processed without leaving a buffer. -/
theorem rowsLoop_some {α : Type} [Zero α] [Add α] [Sub α] [Mul α] (fns : FmModelFns α)
    (env : Env) (w : List α) (k kb T S : Nat) (hw : w.length ≤ 2 ^ 31) (hwS : w.length = S)
    (hth : ∀ a b, env.thread_num a b < T) :
    ∀ (batch : List (Row α)) (ib : Nat) (tmp : List (List α)), Shape tmp T S →
      (∀ v ∈ batch, ∀ p ∈ v.feats, ∀ l, l < k → p.1 * k + l < S) →
      ∃ tmp2, rowsLoop fns env w k kb ib batch tmp = some tmp2 ∧ Shape tmp2 T S := by
  intro batch
  induction batch with
  | nil => intro ib tmp hs _; exact ⟨tmp, rfl, hs⟩
  | cons v rest ih =>
    intro ib tmp hs hin
    obtain ⟨tmp1, h1, hs1⟩ := rowGrad_some w k (env.thread_num kb ib) T S
      (fns.PredToGrad v.label (fns.Predict w v) * v.weight) v.feats tmp hw hwS (hth kb ib) hs
      (hin v (List.mem_cons_self _ _))
    obtain ⟨tmp2, h2, hs2⟩ := ih (ib + 1) tmp1 hs1
      fun u hu => hin u (List.mem_cons_of_mem _ hu)
    exact ⟨tmp2, by simp only [rowsLoop, h1]; exact h2, hs2⟩

/-- One merge step stays inside `out_grad` and the accumulators. -/
theorem mergeAt_some {α : Type} [Zero α] [Add α] (T S i j : Nat) (g : List α)
    (tmp : List (List α)) (hg : g.length = S) (hs : Shape tmp T S) (hi : i < T) (hj : j < S) :
    ∃ st2, mergeAt i j (g, tmp) = some st2 ∧ st2.1.length = S ∧ Shape st2.2 T S := by
  obtain ⟨hget, hlen⟩ := Shape_getElem? tmp T S i hs hi
  have hj2 : j < (tmp.getD i []).length := by rw [hlen]; exact hj
  have hj3 : j < g.length := by rw [hg]; exact hj
  exact ⟨(g.set j (g[j] + (tmp.getD i [])[j]), tmp.set i ((tmp.getD i []).set j 0)),
    by simp only [mergeAt, hget, List.getElem?_eq_getElem hj3, List.getElem?_eq_getElem hj2],
    by rw [List.length_set]; exact hg,
    Shape_set tmp T S i _ hs (by rw [List.length_set]; exact hlen)⟩

/-- The merge after a block stays inside `out_grad` and the accumulators. -/
theorem mergeLoop_some {α : Type} [Zero α] [Add α] (T S : Nat) (g : List α)
    (tmp : List (List α)) (hg : g.length = S) (hs : Shape tmp T S) :
    ∃ st2, mergeLoop T S (g, tmp) = some st2 ∧ st2.1.length = S ∧ Shape st2.2 T S := by
  apply forRange_inv (fun _ (st : List α × List (List α)) => st.1.length = S ∧ Shape st.2 T S)
    (fun i st1 => forRange S (mergeAt i) st1) T (g, tmp) ⟨hg, hs⟩
  intro i st hi hst
  apply forRange_inv (fun _ (st : List α × List (List α)) => st.1.length = S ∧ Shape st.2 T S)
    (mergeAt i) S st hst
  intro j st1 hj hst1
  obtain ⟨g1, tmp1⟩ := st1
  exact mergeAt_some T S i j g1 tmp1 hst1.1 hst1.2 hi hj

/-- The block loop of a memory-safe call runs to completion. -/
theorem blockLoop_some {α : Type} [Zero α] [Add α] [Sub α] [Mul α] (fns : FmModelFns α)
    (env : Env) (w : List α) (k T S : Nat) (hw : w.length ≤ 2 ^ 31) (hwS : w.length = S)
    (hth : ∀ a b, env.thread_num a b < T) :
    ∀ (blocks : List (List (Row α))) (kb : Nat) (cur : List (Row α)) (g : List α)
      (tmpOpt : Option (List (List α))), g.length = S →
      (∀ bufs, tmpOpt = some bufs → Shape bufs T S) →
      (∀ b ∈ blocks, ∀ v ∈ b, ∀ p ∈ v.feats, ∀ l, l < k → p.1 * k + l < S) →
      ∃ r, whileNextAux (blockStep fns env w k T S) blocks kb cur (g, tmpOpt) = some r ∧
        r.1.1.length = S := by
  intro blocks
  induction blocks with
  | nil => intro kb cur g tmpOpt hg _ _; exact ⟨((g, tmpOpt), cur), rfl, hg⟩
  | cons b bs ih =>
    intro kb cur g tmpOpt hg htmp hin
    obtain ⟨tmp1, h1, hs1⟩ := rowsLoop_some fns env w k kb T S hw hwS hth b 0
      (staticInit tmpOpt T S) (Shape_staticInit tmpOpt T S htmp)
      (hin b (List.mem_cons_self _ _))
    obtain ⟨st2, h2, hg2, hs2⟩ := mergeLoop_some T S g tmp1 hg hs1
    obtain ⟨g2, tmp2⟩ := st2
    obtain ⟨r, hr, hrl⟩ := ih (kb + 1) b g2 (some tmp2) hg2
      (by intro bufs hb; rw [← Option.some.inj hb]; exact hs2)
      fun c hc => hin c (List.mem_cons_of_mem _ hc)
    exact ⟨r, by simp only [whileNextAux, blockStep, h1, h2]; exact hr, hrl⟩

/-- The regularisation loop stays inside `out_grad` and the weights. -/
theorem regLoop_some {α : Type} [Add α] [Mul α] (reg : α) (w g : List α) (S : Nat)
    (hwS : w.length = S) (hg : g.length = S) : ∃ g2, regLoop reg w S g = some g2 := by
  obtain ⟨g2, h, _⟩ := forRange_inv (fun _ (g1 : List α) => g1.length = S) (regStep reg w) S g hg
    (by
      intro i g1 hi h1
      have e1 : i < g1.length := by omega
      have e2 : i < w.length := by omega
      exact ⟨g1.set i (g1[i] + reg * w[i]),
        by simp only [regStep, List.getElem?_eq_getElem e1, List.getElem?_eq_getElem e2],
        by show (g1.set i _).length = S; rw [List.length_set]; exact h1⟩)
  exact ⟨g2, h⟩

/-- A memory-safe `CalcGrad` call whose dimension check passes returns,
whatever the carrier of the floating values. -/
theorem CalcGrad_returns {α : Type} [Zero α] [Add α] [Sub α] [Mul α] [DecidableEq α]
    (fns : FmModelFns α) (env : Env) (self : FmObjFunction α) (out_grad w : List α)
    (size : Nat) (hsize : size = self.model.param.num_weight)
    (hsafe : SafeCall env self out_grad w size) :
    ∃ st, CalcGrad fns env self out_grad w size = .done () st := by
  obtain ⟨hw, hog, h31, hth, htmp, hin⟩ := hsafe
  obtain ⟨r, h1, hg1⟩ :=
    blockLoop_some fns env w self.model.param.nfactor self.nthread size (by omega) hw hth
      self.dtrain.data 0 self.dtrain.row_ (List.replicate size 0) self.tmp_out_grad
      (by simp) htmp hin
  obtain ⟨⟨g1, tmpF⟩, cur2⟩ := r
  have hwn : whileNext (blockStep fns env w self.model.param.nfactor self.nthread size)
      self.dtrain.BeforeFirst (List.replicate size 0, self.tmp_out_grad)
      = some ((g1, tmpF), { self.dtrain with pending := [], row_ := cur2 }) := by
    simp only [whileNext, whileNextFrom, RowBlockIter.BeforeFirst, h1]
  have hne : ¬ size ≠ self.model.param.num_weight := fun h => h hsize
  by_cases hr : env.rank = 0
  · by_cases hz : self.reg_L2_V = 0
    · refine ⟨(⟨self.nthread, self.reg_L2_V, self.model,
        ⟨self.dtrain.data, [], cur2, self.dtrain.num_col⟩, self.dval, self.model_in,
        self.val_data, tmpF⟩, g1), ?_⟩
      simp only [CalcGrad, if_neg hne, memsetZero_eq out_grad size hog, hwn, if_pos hr, hz,
        ne_eq, not_true_eq_false, if_false]
    · obtain ⟨g2, h2⟩ := regLoop_some self.reg_L2_V w g1 size hw hg1
      rw [hsize] at h2
      refine ⟨(⟨self.nthread, self.reg_L2_V, self.model,
        ⟨self.dtrain.data, [], cur2, self.dtrain.num_col⟩, self.dval, self.model_in,
        self.val_data, tmpF⟩, g2), ?_⟩
      simp only [CalcGrad, if_neg hne, memsetZero_eq out_grad size hog, hwn, if_pos hr, ne_eq,
        hz, not_false_eq_true, if_true, h2]
  · refine ⟨(⟨self.nthread, self.reg_L2_V, self.model,
      ⟨self.dtrain.data, [], cur2, self.dtrain.num_col⟩, self.dval, self.model_in,
      self.val_data, tmpF⟩, g1), ?_⟩
    simp only [CalcGrad, if_neg hne, memsetZero_eq out_grad size hog, hwn, if_neg hr]

/-- Buffers that all have length `S` are well shaped. -/
theorem Shape_of_forall_mem {α : Type} (bufs : List (List α)) (T S : Nat)
    (hl : bufs.length = T)
    (h : ∀ b ∈ bufs, b.length = S) : Shape bufs T S := by
  refine ⟨hl, ?_⟩
  intro i hi
  have hi2 : i < bufs.length := by rw [hl]; exact hi
  rw [List.getD_eq_getElem _ _ hi2]
  exact h _ (List.getElem_mem _)

/-- A subscript built from a feature below `nf` and a factor below `k` lies
below `nf * k`. -/
theorem index_lt (nf k idx i : Nat) (hidx : idx < nf) (hi : i < k) :
    idx * k + i < nf * k := by
  have h1 : (idx + 1) * k ≤ nf * k := Nat.mul_le_mul_right k hidx
  rw [Nat.succ_mul] at h1
  omega

/-- Distinct (feature, factor) pairs have distinct subscripts. -/
theorem index_inj (k idx idx2 i i2 : Nat) (hi : i < k) (hi2 : i2 < k)
    (h : idx * k + i = idx2 * k + i2) : idx = idx2 ∧ i = i2 := by
  have hk : 0 < k := by omega
  have e1 : (idx * k + i) / k = idx := by
    rw [Nat.add_comm, Nat.add_mul_div_right _ _ hk, Nat.div_eq_of_lt hi, Nat.zero_add]
  have e2 : (idx2 * k + i2) / k = idx2 := by
    rw [Nat.add_comm, Nat.add_mul_div_right _ _ hk, Nat.div_eq_of_lt hi2, Nat.zero_add]
  have e : idx = idx2 := by rw [← e1, ← e2, h]
  subst e
  exact ⟨rfl, by omega⟩

/-- Claim C10 (index safety of the gradient loops).  For any carrier of the
floating values, with `nfactor ≥ 1`,
`nthread ≥ 1`, `size = num_weight = num_feature * nfactor < 2^31`, weight and
gradient buffers of `size` entries, accumulators (if created) of exactly
`nthread` buffers of length `size`, thread ids below `nthread` and feature
indices below `num_feature`: every subscript `n = index[j] * nfactor + i`
with `i < nfactor` is computed without wrap-around and satisfies
`0 ≤ n < size`; the whole call returns, that is, no read of `weight[n]` and no
write to `tmp_out_grad[thread_id][n]` or `out_grad[j]` leaves its buffer; and
distinct (feature, factor) pairs give distinct subscripts. -/
theorem calcGrad_index_safety {α : Type} [Zero α] [Add α] [Sub α] [Mul α] [DecidableEq α]
    (fns : FmModelFns α) (env : Env) (self : FmObjFunction α) (out_grad w : List α) (size : Nat)
    (hk : 1 ≤ self.model.param.nfactor) (hnt : 1 ≤ self.nthread)
    (hsize : size = self.model.param.num_weight)
    (hnw : self.model.param.num_weight
      = self.model.param.num_feature * self.model.param.nfactor)
    (h31 : size < 2 ^ 31) (hw : w.length = size) (hog : out_grad.length = size)
    (hacc : ∀ bufs, self.tmp_out_grad = some bufs →
      bufs.length = self.nthread ∧ ∀ b ∈ bufs, b.length = size)
    (hth : ∀ a b, env.thread_num a b < self.nthread)
    (hidx : ∀ b ∈ self.dtrain.data, ∀ v ∈ b, ∀ p ∈ v.feats,
      p.1 < self.model.param.num_feature) :
    (∀ idx i, idx < self.model.param.num_feature → i < self.model.param.nfactor →
      gradIndex idx self.model.param.nfactor i
        = ((idx * self.model.param.nfactor + i : Nat) : Int) ∧
      0 ≤ gradIndex idx self.model.param.nfactor i ∧
      gradIndex idx self.model.param.nfactor i < (size : Int)) ∧
    (∃ st, CalcGrad fns env self out_grad w size = .done () st) ∧
    ∀ idx idx2 i i2, idx < self.model.param.num_feature →
      idx2 < self.model.param.num_feature → i < self.model.param.nfactor →
      i2 < self.model.param.nfactor →
      gradIndex idx self.model.param.nfactor i = gradIndex idx2 self.model.param.nfactor i2 →
      idx = idx2 ∧ i = i2 := by
  have _ := hk
  have _ := hnt
  have hlt : ∀ idx i, idx < self.model.param.num_feature → i < self.model.param.nfactor →
      idx * self.model.param.nfactor + i < size := by
    intro idx i h1 h2
    rw [hsize, hnw]
    exact index_lt _ _ idx i h1 h2
  have hgi : ∀ idx i, idx < self.model.param.num_feature → i < self.model.param.nfactor →
      gradIndex idx self.model.param.nfactor i
        = ((idx * self.model.param.nfactor + i : Nat) : Int) := by
    intro idx i h1 h2
    exact gradIndex_eq idx _ i (by have := hlt idx i h1 h2; omega)
  refine ⟨?_, ?_, ?_⟩
  · intro idx i h1 h2
    rw [hgi idx i h1 h2]
    exact ⟨rfl, Int.natCast_nonneg _, by exact_mod_cast hlt idx i h1 h2⟩
  · have hsafe : SafeCall env self out_grad w size :=
      ⟨hw, hog, by omega, hth,
        fun bufs hb => Shape_of_forall_mem bufs _ _ (hacc bufs hb).1 (hacc bufs hb).2,
        fun b hb v hv p hp l hl => hlt p.1 l (hidx b hb v hv p hp) hl⟩
    exact CalcGrad_returns fns env self out_grad w size hsize hsafe
  · intro idx idx2 i i2 h1 h2 h3 h4 he
    rw [hgi idx i h1 h3, hgi idx2 i2 h2 h4] at he
    exact index_inj _ idx idx2 i i2 h3 h4 (by exact_mod_cast he)

/-- Instance of C10: three features, two factors, two threads, accumulators
holding stale values. -/
theorem calcGrad_index_safety_witness :
    gradIndex 2 2 1 = 5 ∧
    ∃ st, CalcGrad ⟨fun _ _ => 0, fun _ _ => 0, fun _ _ => 0, fun _ _ => 1⟩
      ⟨0, fun _ i => i % 2⟩
      ({ nthread := 2, reg_L2_V := 1, model := ⟨⟨3, 2, 6, 1, 0⟩⟩,
          dtrain := ⟨[[⟨1, 1, [(0, 1), (2, 1)]⟩]], [], [], 3⟩,
          dval := ⟨[], [], [], 0⟩, model_in := "NULL", val_data := "NULL",
          tmp_out_grad := some [[1, 2, 3, 4, 5, 6], [0, 0, 0, 0, 0, 7]] } : FmObjFunction ℚ)
      [0, 0, 0, 0, 0, 0] [1/10, 2/10, 0, 0, 3/10, 4/10] 6 = .done () st := by
  obtain ⟨h1, h2, _⟩ := calcGrad_index_safety
    ⟨fun _ _ => 0, fun _ _ => 0, fun _ _ => 0, fun _ _ => 1⟩ ⟨0, fun _ i => i % 2⟩
    ({ nthread := 2, reg_L2_V := 1, model := ⟨⟨3, 2, 6, 1, 0⟩⟩,
        dtrain := ⟨[[⟨1, 1, [(0, 1), (2, 1)]⟩]], [], [], 3⟩,
        dval := ⟨[], [], [], 0⟩, model_in := "NULL", val_data := "NULL",
        tmp_out_grad := some [[1, 2, 3, 4, 5, 6], [0, 0, 0, 0, 0, 7]] } : FmObjFunction ℚ)
    [0, 0, 0, 0, 0, 0] [1/10, 2/10, 0, 0, 3/10, 4/10] 6
    (by decide) (by decide) rfl rfl (by norm_num) rfl rfl
    (by
      intro bufs hb
      simp at hb
      subst hb
      simp)
    (by intro a b; exact Nat.mod_lt _ (by decide))
    (by
      intro b hb v hv p hp
      simp at hb
      subst hb
      simp at hv
      subst hv
      simp at hp
      rcases hp with rfl | rfl <;> simp)
  exact ⟨(h1 2 1 (by decide) (by decide)).1, h2⟩

/-! ## Dimension check -/

/-- Once its dimension check has passed, `Eval` cannot fail on that check. -/
theorem Eval_ne_fatal_dim {α : Type} [Zero α] [Add α] [Mul α] [Div α] [NatCast α]
    [OfScientific α] [DecidableEq α] [IsNan α] (fns : FmModelFns α) (env : Env)
    (self : FmObjFunction α) (w : List α) (size : Nat) (validation : Bool)
    (hsize : size = self.model.param.num_weight) (st : FmObjFunction α) :
    Eval fns env self w size validation ≠ .fatal .dim st := by
  have hne : ¬ size ≠ self.model.param.num_weight := fun h => h hsize
  obtain ⟨it1, h1⟩ := whileNext_pure (lossBlock fns w) self.dval (0 : α)
  obtain ⟨it2, h2⟩ := whileNext_pure (lossBlock fns w) self.dtrain (0 : α)
  cases validation with
  | true =>
    simp only [Eval, if_neg hne, h1, if_true]
    split <;> simp
  | false =>
    simp only [Eval, if_neg hne, h2, Bool.false_eq_true, if_false]
    split
    · simp
    · split <;> simp

/-- Once its dimension check has passed, `CalcGrad` hits no `CHECK`. -/
theorem CalcGrad_ne_fatal {α : Type} [Zero α] [Add α] [Sub α] [Mul α] [DecidableEq α]
    (fns : FmModelFns α) (env : Env) (self : FmObjFunction α)
    (out_grad w : List α) (size : Nat) (hsize : size = self.model.param.num_weight)
    (f : Fatal) (st : FmObjFunction α × List α) :
    CalcGrad fns env self out_grad w size ≠ .fatal f st := by
  have hne : ¬ size ≠ self.model.param.num_weight := fun h => h hsize
  simp only [CalcGrad, if_neg hne]
  split
  · simp
  · split
    · simp
    · split
      · split
        · split <;> simp
        · simp
      · simp

/-- Claim C9 (a dimension mismatch is fatal at the top of `Eval` and
`CalcGrad`).  For any carrier of the floating values: if
`size ≠ model.param.num_weight`, both calls fail on the dimension check with
the state untouched, that is, the iterators are neither reset nor read and
`out_grad` is unchanged.  If `size = model.param.num_weight`, the dimension
check of `Eval` passes, no `CHECK` of `CalcGrad` fails, and a memory-safe
`CalcGrad` call returns. -/
theorem dimension_mismatch_fatal {α : Type} [Zero α] [Add α] [Sub α] [Mul α] [Div α]
    [NatCast α] [OfScientific α] [DecidableEq α] [IsNan α] (fns : FmModelFns α) (env : Env)
    (self : FmObjFunction α) (out_grad w : List α) (size : Nat) (validation : Bool) :
    (size ≠ self.model.param.num_weight →
      Eval fns env self w size validation = .fatal .dim self ∧
      CalcGrad fns env self out_grad w size = .fatal .dim (self, out_grad)) ∧
    (size = self.model.param.num_weight →
      (∀ st, Eval fns env self w size validation ≠ .fatal .dim st) ∧
      (∀ f st, CalcGrad fns env self out_grad w size ≠ .fatal f st) ∧
      (SafeCall env self out_grad w size →
        ∃ st, CalcGrad fns env self out_grad w size = .done () st)) := by
  constructor
  · intro hne
    exact ⟨by simp [Eval, hne], by simp [CalcGrad, hne]⟩
  · intro hsize
    exact ⟨Eval_ne_fatal_dim fns env self w size validation hsize,
      CalcGrad_ne_fatal fns env self out_grad w size hsize,
      CalcGrad_returns fns env self out_grad w size hsize⟩

/-- Instance of C9: a buffer of 5 entries against `num_weight = 6`; the
iterator stays in the middle of its pass and `out_grad` keeps its content. -/
theorem dimension_mismatch_fatal_witness :
    CalcGrad ⟨fun _ _ => 0, fun _ _ => 0, fun _ _ => 0, fun _ _ => 1⟩ ⟨0, fun _ _ => 0⟩
      ({ nthread := 1, reg_L2_V := 1, model := ⟨⟨3, 2, 6, 1, 0⟩⟩,
          dtrain := ⟨[[⟨1, 1, [(0, 1)]⟩], []], [[]], [⟨1, 1, [(0, 1)]⟩], 3⟩,
          dval := ⟨[], [], [], 0⟩, model_in := "NULL", val_data := "NULL",
          tmp_out_grad := none } : FmObjFunction ℚ)
      [9, 8, 7, 6, 5] [1, 1, 1, 1, 1] 5
      = .fatal .dim
        ({ nthread := 1, reg_L2_V := 1, model := ⟨⟨3, 2, 6, 1, 0⟩⟩,
            dtrain := ⟨[[⟨1, 1, [(0, 1)]⟩], []], [[]], [⟨1, 1, [(0, 1)]⟩], 3⟩,
            dval := ⟨[], [], [], 0⟩, model_in := "NULL", val_data := "NULL",
            tmp_out_grad := none }, [9, 8, 7, 6, 5]) :=
  ((dimension_mismatch_fatal
    ⟨fun _ _ => 0, fun _ _ => 0, fun _ _ => 0, fun _ _ => 1⟩ ⟨0, fun _ _ => 0⟩
    ({ nthread := 1, reg_L2_V := 1, model := ⟨⟨3, 2, 6, 1, 0⟩⟩,
        dtrain := ⟨[[⟨1, 1, [(0, 1)]⟩], []], [[]], [⟨1, 1, [(0, 1)]⟩], 3⟩,
        dval := ⟨[], [], [], 0⟩, model_in := "NULL", val_data := "NULL",
        tmp_out_grad := none } : FmObjFunction ℚ)
    [9, 8, 7, 6, 5] [1, 1, 1, 1, 1] 5 false).1 (by decide)).2

/-! ## The NaN check of `Eval` on doubles -/

/-- Sum on `XReal`. -/
theorem XReal.add_def (a b : XReal) : a + b = XReal.add a b := rfl

/-- Product on `XReal`. -/
theorem XReal.mul_def (a b : XReal) : a * b = XReal.mul a b := rfl

/-- Quotient on `XReal`. -/
theorem XReal.div_def (a b : XReal) : a / b = XReal.div a b := rfl

/-- Zero of `XReal`. -/
theorem XReal.zero_def : (0 : XReal) = XReal.fin 0 := rfl

/-- Decimal literals of `XReal`. -/
theorem XReal.ofScientific_def (m : Nat) (s : Bool) (e : Nat) :
    (OfScientific.ofScientific m s e : XReal) = XReal.fin (OfScientific.ofScientific m s e) :=
  rfl

/-- The NaN classifier of `XReal`. -/
theorem XReal.isnan_def (a : XReal) : IsNan.isnan a = decide (a = XReal.nan) := rfl

/-- The squares loop succeeds on every prefix of the weight buffer, whatever
the carrier. -/
theorem forRange_sumSqr_some {α : Type} [Zero α] [Add α] [Mul α] (w : List α) :
    ∀ m : Nat, m ≤ w.length → ∃ sq, forRange m (sumSqrStep w) (0 : α) = some sq := by
  intro m
  induction m with
  | zero => intro _; exact ⟨0, rfl⟩
  | succ m ih =>
    intro h
    obtain ⟨sq, hsq⟩ := ih (by omega)
    have hm : m < w.length := by omega
    exact ⟨sq + w[m] * w[m], by
      simp only [forRange, hsq, sumSqrStep, List.getElem?_eq_getElem hm]⟩

/-- Counterexample to C8 as stated: on rank 0 with `reg_L2_V = 1`, a training
shard of one row of loss 0 and the weight vector `[+∞]`, the accumulated loss
is `0 + 0.5 * 1 * (+∞ * +∞) = +∞`, the check `!std::isnan(sum_val)` passes and
`Eval` returns `+∞`, which is not finite. -/
theorem eval_returns_infinite_loss :
    (Eval ⟨fun _ _ => 0, fun _ _ => 0, fun _ _ => 0, fun _ _ => 0⟩ ⟨0, fun _ _ => 0⟩
      ({ nthread := 1, reg_L2_V := XReal.fin 1, model := ⟨⟨1, 1, 1, 1, 0⟩⟩,
          dtrain := ⟨[[⟨XReal.fin 1, XReal.fin 1, [(0, XReal.fin 1)]⟩]], [], [], 1⟩,
          dval := ⟨[], [], [], 0⟩,
          model_in := "NULL", val_data := "NULL", tmp_out_grad := none } :
          FmObjFunction XReal)
      [XReal.pinf] 1 false).value? = some XReal.pinf ∧
    XReal.isFinite XReal.pinf = false := by
  refine ⟨?_, rfl⟩
  simp [Eval, whileNext, whileNextFrom, whileNextAux, RowBlockIter.BeforeFirst, sumSqr,
    forRange, sumSqrStep, lossBlock,
    Outcome.value?, XReal.isnan_def, XReal.add_def, XReal.mul_def, XReal.zero_def,
    XReal.ofScientific_def, XReal.add, XReal.mul, XReal.scaleInf]
  norm_num
  rw [if_neg (by decide)]

/-- Claim C8, amended (the check of `Eval` is a NaN check).  On doubles, for a
call with `size = num_weight` on a weight buffer of that length: the training
call fails on the NaN check when the accumulated loss (with the L2 term of
rank 0) is NaN and otherwise returns it, infinite or not; the validation call
fails on the NaN check when the accumulated loss is NaN and otherwise returns
it divided by `num_size_val`; hence a value returned by a training call is
never NaN. -/
theorem eval_fails_exactly_on_nan (fns : FmModelFns XReal) (env : Env)
    (self : FmObjFunction XReal) (w : List XReal)
    (hw : self.model.param.num_weight = w.length) :
    (∃ sum_sqr it, sumSqr w w.length = some sum_sqr ∧
      Eval fns env self w w.length false
        = if trainAcc fns env self w sum_sqr = XReal.nan then
            .fatal .nan { self with dtrain := it }
          else .done (trainAcc fns env self w sum_sqr) { self with dtrain := it }) ∧
    (∃ it, Eval fns env self w w.length true
        = if lossPass fns w self.dval.data = XReal.nan then
            .fatal .nan { self with dval := it }
          else
            .done (lossPass fns w self.dval.data / (self.model.param.num_size_val : XReal))
              { self with dval := it }) ∧
    ∀ v st, Eval fns env self w w.length false = .done v st → v ≠ XReal.nan := by
  obtain ⟨sq, hsq⟩ := forRange_sumSqr_some w w.length le_rfl
  have hsq2 : sumSqr w self.model.param.num_weight = some sq := by rw [hw]; exact hsq
  obtain ⟨it, h⟩ := Eval_training fns env self w sq hsq2
  obtain ⟨it2, h2⟩ := Eval_validation fns env self w
  rw [hw] at h h2
  simp only [XReal.isnan_def, decide_eq_true_eq] at h h2
  refine ⟨⟨sq, it, hsq, h⟩, ⟨it2, h2⟩, ?_⟩
  intro v st hv
  rw [h] at hv
  split at hv
  · simp at hv
  · simp only [Outcome.done.injEq] at hv
    rw [← hv.1]
    assumption

/-- Instance of the amended C8: a NaN weight on rank 0 makes the training call
fail on the NaN check. -/
theorem eval_fails_exactly_on_nan_witness :
    ∃ st, Eval ⟨fun _ _ => 0, fun _ _ => 0, fun _ _ => 0, fun _ _ => 0⟩ ⟨0, fun _ _ => 0⟩
      ({ nthread := 1, reg_L2_V := XReal.fin 1, model := ⟨⟨1, 1, 1, 0, 0⟩⟩,
          dtrain := ⟨[], [], [], 1⟩, dval := ⟨[], [], [], 0⟩,
          model_in := "NULL", val_data := "NULL", tmp_out_grad := none } :
          FmObjFunction XReal)
      [XReal.nan] 1 false = .fatal .nan st := by
  obtain ⟨⟨sq, it, hsq, h⟩, _, _⟩ := eval_fails_exactly_on_nan
    ⟨fun _ _ => 0, fun _ _ => 0, fun _ _ => 0, fun _ _ => 0⟩ ⟨0, fun _ _ => 0⟩
    ({ nthread := 1, reg_L2_V := XReal.fin 1, model := ⟨⟨1, 1, 1, 0, 0⟩⟩,
        dtrain := ⟨[], [], [], 1⟩, dval := ⟨[], [], [], 0⟩,
        model_in := "NULL", val_data := "NULL", tmp_out_grad := none } : FmObjFunction XReal)
    [XReal.nan] rfl
  have hsq2 : sq = XReal.nan := by
    have e : sumSqr [XReal.nan] 1 = some XReal.nan := by
      simp [sumSqr, forRange, sumSqrStep, XReal.add_def, XReal.mul_def, XReal.zero_def,
        XReal.add, XReal.mul]
    have e2 : sumSqr [XReal.nan] 1 = some sq := hsq
    rw [e] at e2
    exact (Option.some.inj e2).symm
  subst hsq2
  have hacc : trainAcc ⟨fun _ _ => 0, fun _ _ => 0, fun _ _ => 0, fun _ _ => 0⟩
      ⟨0, fun _ _ => 0⟩
      ({ nthread := 1, reg_L2_V := XReal.fin 1, model := ⟨⟨1, 1, 1, 0, 0⟩⟩,
          dtrain := ⟨[], [], [], 1⟩, dval := ⟨[], [], [], 0⟩,
          model_in := "NULL", val_data := "NULL", tmp_out_grad := none } :
          FmObjFunction XReal)
      [XReal.nan] XReal.nan = XReal.nan := by
    simp [trainAcc, lossPass, XReal.add_def, XReal.mul_def, XReal.zero_def,
      XReal.ofScientific_def, XReal.add, XReal.mul]
  rw [hacc, if_pos rfl] at h
  exact ⟨_, h⟩

/-! ## Dimension negotiation -/

/-- The reduce-max dominates a given start value and every contribution. -/
theorem foldl_max_ge (xs : List Nat) :
    ∀ a : Nat, a ≤ xs.foldl max a ∧ ∀ x ∈ xs, x ≤ xs.foldl max a := by
  induction xs with
  | nil => intro a; exact ⟨le_rfl, by simp⟩
  | cons y ys ih =>
    intro a
    obtain ⟨h1, h2⟩ := ih (max a y)
    refine ⟨le_trans (le_max_left a y) h1, ?_⟩
    intro x hx
    rcases List.mem_cons.mp hx with rfl | hx
    · exact le_trans (le_max_right a x) h1
    · exact h2 x hx

/-- The reduce-max is the start value or one of the contributions. -/
theorem foldl_max_mem (xs : List Nat) :
    ∀ a : Nat, xs.foldl max a = a ∨ xs.foldl max a ∈ xs := by
  induction xs with
  | nil => intro a; exact Or.inl rfl
  | cons y ys ih =>
    intro a
    rcases ih (max a y) with h | h
    · rw [List.foldl_cons, h]
      rcases max_choice a y with e | e
      · exact Or.inl e
      · exact Or.inr (by rw [e]; exact List.mem_cons_self _ _)
    · exact Or.inr (List.mem_cons_of_mem _ h)

/-- The reduce-max of a non-empty collective is the largest contribution. -/
theorem Allreduce_Max_spec (xs : List Nat) (hne : xs ≠ []) :
    (∀ x ∈ xs, x ≤ Allreduce_Max xs) ∧ Allreduce_Max xs ∈ xs := by
  refine ⟨(foldl_max_ge xs 0).2, ?_⟩
  rcases foldl_max_mem xs 0 with h | h
  · cases xs with
    | nil => exact absurd rfl hne
    | cons y ys =>
      have hy : y ≤ Allreduce_Max (y :: ys) := (foldl_max_ge (y :: ys) 0).2 y
        (List.mem_cons_self _ _)
      have h0 : Allreduce_Max (y :: ys) = 0 := h
      have : y = 0 := by omega
      rw [h0, this]
      exact List.mem_cons_self _ _
  · exact h

/-- Counterexample to C6 as stated: a single worker whose shard has 3 columns
and whose `num_feature` was configured as 10 (with `nfactor = 2`) keeps
`num_feature = 10` and reports `dim = 20`, while the maximum of the local
column counts is 3. -/
theorem initNumDim_keeps_configured_num_feature :
    (InitNumDim
      ({ nthread := 1, reg_L2_V := 0, model := ⟨⟨10, 2, 20, 0, 0⟩⟩,
          dtrain := ⟨[[⟨1, 1, [(2, 1)]⟩]], [], [⟨1, 1, [(2, 1)]⟩], 3⟩,
          dval := ⟨[], [], [], 0⟩, model_in := "NULL", val_data := "NULL",
          tmp_out_grad := none } : FmObjFunction ℚ)
      [{ nthread := 1, reg_L2_V := 0, model := ⟨⟨10, 2, 20, 0, 0⟩⟩,
          dtrain := ⟨[[⟨1, 1, [(2, 1)]⟩]], [], [⟨1, 1, [(2, 1)]⟩], 3⟩,
          dval := ⟨[], [], [], 0⟩, model_in := "NULL", val_data := "NULL",
          tmp_out_grad := none }]).2.model.param.num_feature = 10 ∧
    (InitNumDim
      ({ nthread := 1, reg_L2_V := 0, model := ⟨⟨10, 2, 20, 0, 0⟩⟩,
          dtrain := ⟨[[⟨1, 1, [(2, 1)]⟩]], [], [⟨1, 1, [(2, 1)]⟩], 3⟩,
          dval := ⟨[], [], [], 0⟩, model_in := "NULL", val_data := "NULL",
          tmp_out_grad := none } : FmObjFunction ℚ)
      [{ nthread := 1, reg_L2_V := 0, model := ⟨⟨10, 2, 20, 0, 0⟩⟩,
          dtrain := ⟨[[⟨1, 1, [(2, 1)]⟩]], [], [⟨1, 1, [(2, 1)]⟩], 3⟩,
          dval := ⟨[], [], [], 0⟩, model_in := "NULL", val_data := "NULL",
          tmp_out_grad := none }]).1.1 = 20 ∧
    (10 : Nat) ≠ 3 ∧ (20 : Nat) ≠ 3 * 2 := by
  refine ⟨?_, ?_, by decide, by decide⟩ <;>
    simp [InitNumDim, Allreduce_Max, Allreduce_Sum, RowBlockIter.NumCol, RowBlockIter.Value]

/-- Claim C6, amended (`num_feature` is the larger of the global maximum column
count and the configured `num_feature`).  When no pretrained model is
supplied, for a worker `self` of a collective `world`: with `M` the maximum of
the local column counts over all workers, after `InitNumDim` the worker has
`num_feature = max M c`, where `c` is the `num_feature` it had before the call,
and the reported `dim` is `num_feature * nfactor` in `size_t` arithmetic; so
when `c ≤ M` and the product fits, `num_feature = M` and
`dim = M * nfactor`. -/
theorem initNumDim_num_feature (self : FmObjFunction ℚ) (world : List (FmObjFunction ℚ))
    (hself : self ∈ world) (hin : self.model_in = "NULL") :
    ∃ M : Nat,
      (∀ wk ∈ world, wk.dtrain.NumCol ≤ M) ∧ (∃ wk ∈ world, wk.dtrain.NumCol = M) ∧
      (InitNumDim self world).2.model.param.num_feature = max M self.model.param.num_feature ∧
      (InitNumDim self world).1.1
        = (max M self.model.param.num_feature * self.model.param.nfactor) % 2 ^ 64 ∧
      (InitNumDim self world).2.model.param.num_weight = (InitNumDim self world).1.1 ∧
      (self.model.param.num_feature ≤ M → M * self.model.param.nfactor < 2 ^ 64 →
        (InitNumDim self world).2.model.param.num_feature = M ∧
        (InitNumDim self world).1.1 = M * self.model.param.nfactor) := by
  have hne : (world.map fun wk => wk.dtrain.NumCol) ≠ [] := by
    intro h
    rw [List.map_eq_nil_iff] at h
    rw [h] at hself
    simp at hself
  obtain ⟨hge, hmem⟩ := Allreduce_Max_spec _ hne
  obtain ⟨wk, hwk, hwkM⟩ := List.mem_map.mp hmem
  have hnf : (InitNumDim self world).2.model.param.num_feature
      = max (Allreduce_Max (world.map fun wk => wk.dtrain.NumCol))
          self.model.param.num_feature := by
    by_cases hv : self.val_data = "NULL" <;> simp [InitNumDim, hin, hv]
  have hdim : (InitNumDim self world).1.1
      = (max (Allreduce_Max (world.map fun wk => wk.dtrain.NumCol))
          self.model.param.num_feature * self.model.param.nfactor) % 2 ^ 64 := by
    by_cases hv : self.val_data = "NULL" <;> simp [InitNumDim, hin, hv]
  refine ⟨Allreduce_Max (world.map fun wk => wk.dtrain.NumCol), ?_, ⟨wk, hwk, hwkM⟩, hnf,
    hdim, rfl, ?_⟩
  · intro w2 hw2
    exact hge _ (List.mem_map.mpr ⟨w2, hw2, rfl⟩)
  · intro hc hfit
    rw [hnf, hdim, max_eq_left hc]
    exact ⟨rfl, Nat.mod_eq_of_lt hfit⟩

/-- Instance of the amended C6: two workers with 3 and 5 columns and no
configured `num_feature`; both end with `num_feature = 5`. -/
theorem initNumDim_num_feature_witness :
    ∃ M : Nat, M = 5 ∧
      (InitNumDim
        ({ nthread := 1, reg_L2_V := 0, model := ⟨⟨0, 2, 0, 0, 0⟩⟩,
            dtrain := ⟨[], [], [], 3⟩, dval := ⟨[], [], [], 0⟩,
            model_in := "NULL", val_data := "NULL", tmp_out_grad := none } : FmObjFunction ℚ)
        [{ nthread := 1, reg_L2_V := 0, model := ⟨⟨0, 2, 0, 0, 0⟩⟩,
            dtrain := ⟨[], [], [], 3⟩, dval := ⟨[], [], [], 0⟩,
            model_in := "NULL", val_data := "NULL", tmp_out_grad := none },
         { nthread := 1, reg_L2_V := 0, model := ⟨⟨0, 2, 0, 0, 0⟩⟩,
            dtrain := ⟨[], [], [], 5⟩, dval := ⟨[], [], [], 0⟩,
            model_in := "NULL", val_data := "NULL",
            tmp_out_grad := none }]).2.model.param.num_feature = max M 0 := by
  obtain ⟨M, hle, ⟨wk, hwk, hM⟩, hnf, _⟩ := initNumDim_num_feature
    ({ nthread := 1, reg_L2_V := 0, model := ⟨⟨0, 2, 0, 0, 0⟩⟩,
        dtrain := ⟨[], [], [], 3⟩, dval := ⟨[], [], [], 0⟩,
        model_in := "NULL", val_data := "NULL", tmp_out_grad := none } : FmObjFunction ℚ)
    [{ nthread := 1, reg_L2_V := 0, model := ⟨⟨0, 2, 0, 0, 0⟩⟩,
        dtrain := ⟨[], [], [], 3⟩, dval := ⟨[], [], [], 0⟩,
        model_in := "NULL", val_data := "NULL", tmp_out_grad := none },
     { nthread := 1, reg_L2_V := 0, model := ⟨⟨0, 2, 0, 0, 0⟩⟩,
        dtrain := ⟨[], [], [], 5⟩, dval := ⟨[], [], [], 0⟩,
        model_in := "NULL", val_data := "NULL", tmp_out_grad := none }]
    (List.mem_cons_self _ _) rfl
  refine ⟨M, ?_, hnf⟩
  have h5 := hle _ (List.mem_cons_of_mem _ (List.mem_cons_self _ _))
  simp only [RowBlockIter.NumCol] at h5 hM
  simp only [List.mem_cons, List.mem_singleton, List.not_mem_nil, or_false] at hwk
  rcases hwk with rfl | rfl
  · simp at hM; omega
  · simp at hM; omega

/-- Behaviour of the code on the failing input of C7: one worker, no input
model, a training shard of two rows delivered as two blocks of one row each.
Whether `Value()` is the first block or still empty, `InitNumDim` sets
`num_size` (and reports `size`) to the number of rows of that block, 1 or 0,
and not to the 2 rows of the shard. -/
theorem initNumDim_counts_current_block_only :
    (InitNumDim
      ({ nthread := 1, reg_L2_V := 0, model := ⟨⟨0, 1, 0, 0, 0⟩⟩,
          dtrain := ⟨[[⟨1, 1, [(0, 1)]⟩], [⟨0, 1, [(0, 1)]⟩]],
            [[⟨0, 1, [(0, 1)]⟩]], [⟨1, 1, [(0, 1)]⟩], 1⟩,
          dval := ⟨[], [], [], 0⟩, model_in := "NULL", val_data := "NULL",
          tmp_out_grad := none } : FmObjFunction ℚ)
      [{ nthread := 1, reg_L2_V := 0, model := ⟨⟨0, 1, 0, 0, 0⟩⟩,
          dtrain := ⟨[[⟨1, 1, [(0, 1)]⟩], [⟨0, 1, [(0, 1)]⟩]],
            [[⟨0, 1, [(0, 1)]⟩]], [⟨1, 1, [(0, 1)]⟩], 1⟩,
          dval := ⟨[], [], [], 0⟩, model_in := "NULL", val_data := "NULL",
          tmp_out_grad := none }]).1.2 = 1 ∧
    (InitNumDim
      ({ nthread := 1, reg_L2_V := 0, model := ⟨⟨0, 1, 0, 0, 0⟩⟩,
          dtrain := ⟨[[⟨1, 1, [(0, 1)]⟩], [⟨0, 1, [(0, 1)]⟩]],
            [[⟨1, 1, [(0, 1)]⟩], [⟨0, 1, [(0, 1)]⟩]], [], 1⟩,
          dval := ⟨[], [], [], 0⟩, model_in := "NULL", val_data := "NULL",
          tmp_out_grad := none } : FmObjFunction ℚ)
      [{ nthread := 1, reg_L2_V := 0, model := ⟨⟨0, 1, 0, 0, 0⟩⟩,
          dtrain := ⟨[[⟨1, 1, [(0, 1)]⟩], [⟨0, 1, [(0, 1)]⟩]],
            [[⟨1, 1, [(0, 1)]⟩], [⟨0, 1, [(0, 1)]⟩]], [], 1⟩,
          dval := ⟨[], [], [], 0⟩, model_in := "NULL", val_data := "NULL",
          tmp_out_grad := none }]).2.model.param.num_size = 0 ∧
    ([[⟨1, 1, [(0, 1)]⟩], [⟨0, 1, [(0, 1)]⟩]] : List (List (Row ℚ))).flatten.length = 2 := by
  refine ⟨?_, ?_, rfl⟩ <;>
    simp [InitNumDim, Allreduce_Max, Allreduce_Sum, RowBlockIter.NumCol, RowBlockIter.Value]

end Fm
